import Mathlib

/-! # LaiNES menu (`src/menu.cpp`): a shallow embedding

The C++ classes `Entry`, `Menu` and `FileMenu` are embedded as pure state-passing
functions.

Modelling conventions.

* A `std::string` is a `List Char`, one `Char` per C++ `char`; `size()` is the list
  length and `operator<` is `strLess`.
* `std::vector<Entry*> entries` is a `List (Entry κ)`: every pointer in the vector is
  taken to point to its own object (each call site in the sources passes `new Entry`),
  so an entry is identified with its value. `κ` is the type of callbacks.
* `int` variables (`cursor`, `top`, `bottom`) are `Int`. `entries.size()` is a
  `size_t`, taken as 64 bits wide; the conversions of an `int` to `size_t` and the
  unsigned subtraction `entries.size() - 1` are spelled out modulo `2^64`.
* An out-of-range `entries[i]` and a `readdir` on a null handle are undefined
  behaviour: the embedded function returns `none`.
* `Entry::trigger` is the last statement of `Menu::update`; `update` returns the list of
  callbacks it invokes, in order, next to the menu state it leaves.
* The collaborators that are not in `menu.cpp` are arguments: the directory reader
  (`opendir`, `readdir`), the cartridge loader (`Cartridge::load`, `Cartridge::loaded`),
  the scancode table `SDL_GetScancodeName`, and the value that `query_key()` or
  `query_button()` returns. The loader acts on its own state and not on the run/pause flag.
-/

namespace GUI

/-! ## Strings -/

/-- A `std::string`, one `Char` per `char`. -/
abbrev Str := List Char

/-- The comparison `a < b` of two `std::string`s: lexicographic on the character
values, a proper prefix being smaller. -/
def strLess : Str → Str → Bool
  | [], [] => false
  | [], _ :: _ => true
  | _ :: _, [] => false
  | a :: as, b :: bs =>
    if a.toNat < b.toNat then true
    else if b.toNat < a.toNat then false
    else strLess as bs

/-! ## Entry -/

/-- The fields of `class Entry` that the menu logic reads and writes (the two textures
are derived from the label and play no part in it). -/
structure Entry (κ : Type) where
  label : Str
  callback : κ
  selected : Bool
deriving DecidableEq

namespace Entry

variable {κ : Type}

/-- Method `Entry::select`. -/
def select (e : Entry κ) : Entry κ := { e with selected := true }

/-- Method `Entry::unselect`. -/
def unselect (e : Entry κ) : Entry κ := { e with selected := false }

/-- Method `Entry::get_label`. -/
def get_label (e : Entry κ) : Str := e.label

/-- The part of an entry that `select` and `unselect` leave alone: it stands for the
identity of the object behind the `Entry*`. -/
def ident (e : Entry κ) : Str × κ := (e.label, e.callback)

end Entry

/-! ## std::sort -/

/-- Insertion of `x` into a list ordered by the strict comparator `comp`. -/
def orderedInsertBy {α : Type} (comp : α → α → Bool) (x : α) : List α → List α
  | [] => [x]
  | y :: ys => if comp x y then x :: y :: ys else y :: orderedInsertBy comp x ys

/-- The call `std::sort(first, last, comp)` for a strict comparator `comp`, as an
insertion sort.
The C++ standard fixes the result up to the order of equivalent elements; the
theorems below use only that the result is an ordered rearrangement. -/
def stdSort {α : Type} (comp : α → α → Bool) : List α → List α
  | [] => []
  | x :: xs => orderedInsertBy comp x (stdSort comp xs)

/-! ## Menu -/

/-- The data members of `class Menu`. -/
structure Menu (κ : Type) where
  cursor : Int
  top : Int
  bottom : Int
  entries : List (Entry κ)
  errorMessage : Option (Entry κ)
deriving DecidableEq

/-- Modelled from the spec: the member initialisers of `class Menu` are in `menu.hpp`,
which is not among the sources. A freshly constructed menu has an empty list, cursor 0,
viewport `[0, capacity)` and no error entry. -/
def Menu.fresh (κ : Type) (capacity : Int) : Menu κ :=
  { cursor := 0, top := 0, bottom := capacity, entries := [], errorMessage := none }

/-- Scancode `SDL_SCANCODE_RETURN` of the confirm key. -/
def SDL_SCANCODE_RETURN : Nat := 40
/-- Scancode `SDL_SCANCODE_DOWN` of the move-down key. -/
def SDL_SCANCODE_DOWN : Nat := 81
/-- Scancode `SDL_SCANCODE_UP` of the move-up key. -/
def SDL_SCANCODE_UP : Nat := 82

/-- The array `u8 const* keys`, indexed by scancode; a key is pressed when its byte is
not zero. -/
abbrev KeyState := Nat → Nat

/-- The number of values of a `size_t`. -/
def SIZE_T_MOD : Nat := 2 ^ 64

/-- Conversion of an `int` to `size_t`. -/
def toSizeT (i : Int) : Nat := (i % (SIZE_T_MOD : Int)).toNat

/-- The unsigned difference `n - 1` of a `size_t`. -/
def sizeMinusOne (n : Nat) : Nat := (n + SIZE_T_MOD - 1) % SIZE_T_MOD

/-- The statement `entries[i]->f()`: `none` when `i` is out of range. -/
def modifyAt {α : Type} (f : α → α) (i : Nat) (l : List α) : Option (List α) :=
  match l[i]? with
  | none => none
  | some a => some (l.set i (f a))

namespace Menu

variable {κ : Type}

/-- Method `Menu::add`. -/
def add (m : Menu κ) (entry : Entry κ) : Menu κ :=
  if m.entries.isEmpty then
    { m with entries := m.entries ++ [entry.select] }
  else
    { m with entries := m.entries ++ [entry] }

/-- Method `Menu::clear_error`. -/
def clear_error (m : Menu κ) : Menu κ := { m with errorMessage := none }

/-- Method `Menu::clear`. -/
def clear (m : Menu κ) : Menu κ :=
  { ({ m with entries := [] } : Menu κ).clear_error with cursor := 0 }

/-- The comparator of `Menu::sort_by_label`. -/
def labelLess (a b : Entry κ) : Bool := strLess a.get_label b.get_label

/-- Method `Menu::sort_by_label`. -/
def sort_by_label (m : Menu κ) : Menu κ :=
  if m.entries.isEmpty then m
  else
    { m with
      entries :=
        (stdSort labelLess (m.entries.modifyHead Entry.unselect)).modifyHead Entry.select }

/-- The navigation part of `Menu::update` (lines 90 to 109): the cursor, the viewport
and the error entry after the two movement branches. -/
def navigate (m : Menu κ) (keys : KeyState) : Menu κ :=
  if keys SDL_SCANCODE_DOWN ≠ 0 ∧ toSizeT m.cursor < sizeMinusOne m.entries.length then
    let m1 : Menu κ := { m with cursor := m.cursor + 1 }
    let m2 : Menu κ :=
      if m1.cursor = m1.bottom then { m1 with bottom := m1.bottom + 1, top := m1.top + 1 }
      else m1
    m2.clear_error
  else if keys SDL_SCANCODE_UP ≠ 0 ∧ m.cursor > 0 then
    let m1 : Menu κ := { m with cursor := m.cursor - 1 }
    let m2 : Menu κ :=
      if m1.cursor < m1.top then { m1 with top := m1.top - 1, bottom := m1.bottom - 1 }
      else m1
    m2.clear_error
  else m

/-- Method `Menu::update`: the menu it leaves and the callbacks it has invoked, or `none` when
one of its three `entries[...]` is out of range. -/
def update (m : Menu κ) (keys : KeyState) : Option (Menu κ × List κ) :=
  let oldCursor := m.cursor
  let m1 := m.navigate keys
  match modifyAt Entry.unselect (toSizeT oldCursor) m1.entries with
  | none => none
  | some es1 =>
    match modifyAt Entry.select (toSizeT m1.cursor) es1 with
    | none => none
    | some es2 =>
      let m2 : Menu κ := { m1 with entries := es2 }
      if keys SDL_SCANCODE_RETURN ≠ 0 then
        match es2[toSizeT m2.cursor]? with
        | none => none
        | some e => some (m2, [e.callback])
      else some (m2, [])

end Menu

/-! ## Sequences of menu operations -/

/-- One call of a public operation of `Menu`. -/
inductive MenuOp (κ : Type) where
  | add (entry : Entry κ)
  | clear
  | sort_by_label
  | update (keys : KeyState)

/-- The menu after one operation; `none` when `update` has an out-of-range access. The
callbacks that `update` invokes are taken not to touch the menu. -/
def Menu.step {κ : Type} (m : Menu κ) : MenuOp κ → Option (Menu κ)
  | MenuOp.add entry => some (m.add entry)
  | MenuOp.clear => some m.clear
  | MenuOp.sort_by_label => some m.sort_by_label
  | MenuOp.update keys => (m.update keys).map Prod.fst

/-- The menu after a sequence of operations, run from left to right. -/
def Menu.run {κ : Type} (m : Menu κ) : List (MenuOp κ) → Option (Menu κ)
  | [] => some m
  | op :: ops =>
    match m.step op with
    | none => none
    | some m1 => Menu.run m1 ops

/-- The viewport invariant of the specification: `top ≤ cursor < bottom` and
`bottom - top ≤ capacity`. -/
def Menu.ViewportInv {κ : Type} (capacity : Int) (m : Menu κ) : Prop :=
  m.top ≤ m.cursor ∧ m.cursor < m.bottom ∧ m.bottom - m.top ≤ capacity

instance {κ : Type} (capacity : Int) (m : Menu κ) : Decidable (m.ViewportInv capacity) := by
  unfold Menu.ViewportInv; infer_instance

/-- A key snapshot in which exactly the listed scancodes are pressed. -/
def pressed (codes : List Nat) : KeyState := fun k => if k ∈ codes then 1 else 0

/-- An unselected entry with the given label and callback. -/
def mkEntry {κ : Type} (label : String) (callback : κ) : Entry κ :=
  { label := label.toList, callback := callback, selected := false }

/-- The menu of capacity 5 after `add(A)` and `add(B)`: the cursor is on `A`, the first
of its two entries; the callbacks are named by a character. -/
def menuAB : Menu Char :=
  ((Menu.fresh Char 5).add (mkEntry "A" 'A')).add (mkEntry "B" 'B')

/-- A menu of ten entries with viewport `[0, 5)` and the cursor on index 4. -/
def menuTen : Menu Nat :=
  { cursor := 4, top := 0, bottom := 5,
    entries := (List.range 10).map
      (fun i => { label := ['e', Char.ofNat (48 + i)], callback := i, selected := decide (i = 4) }),
    errorMessage := none }

/-! ## FileMenu -/

/-- The two fields of a `struct dirent` that `FileMenu::change_dir` reads. -/
structure Dirent where
  d_name : Str
  d_type : Nat
deriving DecidableEq

/-- The value `DT_DIR` of `d_type` in `dirent.h`. -/
def DT_DIR : Nat := 4

/-- The closures stored as callbacks by `FileMenu`: `[=]{ change_dir(path); }`,
`[=]{ load_rom(path); }`, and the default callback `[]{}` of `Entry`. -/
inductive FileAction where
  | change_dir (path : Str)
  | load_rom (path : Str)
  | nothing
deriving DecidableEq

/-- The expression `name.substr(name.size() - 4)`, evaluated where `name.size() > 4`. -/
def lastFour (name : Str) : Str := name.drop (name.length - 4)

namespace FileMenu

/-- The body of the `while` loop of `FileMenu::change_dir` for one directory entry. -/
def visit (dir : Str) (m : Menu FileAction) (dirp : Dirent) : Menu FileAction :=
  let name := dirp.d_name
  let path := dir ++ ['/'] ++ name
  if name.getD 0 (Char.ofNat 0) = '.' ∧ name ≠ ['.', '.'] then m
  else if dirp.d_type = DT_DIR then
    m.add { label := name ++ ['/'], callback := FileAction.change_dir path, selected := false }
  else if name.length > 4 ∧ lastFour name = ['.', 'n', 'e', 's'] then
    m.add { label := name, callback := FileAction.load_rom path, selected := false }
  else m

/-- Method `FileMenu::change_dir`. The argument `opendir` gives, for a path, the sequence of
entries that `readdir` returns on the handle, or `none` when `opendir` returns a null
handle (on which `readdir` is undefined). -/
def change_dir (opendir : Str → Option (List Dirent)) (m : Menu FileAction) (dir : Str) :
    Option (Menu FileAction) :=
  let m0 := m.clear
  match opendir dir with
  | none => none
  | some listing => some ((listing.foldl (visit dir) m0).sort_by_label)

end FileMenu

/-! ## The admission rule of `change_dir`, in the words of the specification -/

/-- The name starts with `.` and is not the parent-directory marker `..`. -/
def isHiddenName (name : Str) : Prop := ['.'] <+: name ∧ name ≠ ['.', '.']

/-- The name ends in the image-file suffix, `.nes` in the code. -/
def hasImageEnding (name : Str) : Prop := ['.', 'n', 'e', 's'] <:+ name

/-- The items that the specification lets into the menu: not hidden, and either a
subdirectory or a file (any item that is not a directory) whose name ends in the image
suffix. No length test takes part. -/
def isAdmitted (d : Dirent) : Prop :=
  ¬ isHiddenName d.d_name ∧ (d.d_type = DT_DIR ∨ hasImageEnding d.d_name)

instance (d : Dirent) : Decidable (isAdmitted d) := by
  unfold isAdmitted isHiddenName hasImageEnding; infer_instance

/-- The entry that the specification gives to an admitted item of the directory `dir`:
`name + "/"` descending into `dir/name` for a subdirectory, `name` loading `dir/name`
for an image file. -/
def entryFor (dir : Str) (d : Dirent) : Entry FileAction :=
  if d.d_type = DT_DIR then
    { label := d.d_name ++ ['/'],
      callback := FileAction.change_dir (dir ++ ['/'] ++ d.d_name), selected := false }
  else
    { label := d.d_name,
      callback := FileAction.load_rom (dir ++ ['/'] ++ d.d_name), selected := false }

/-- A directory entry with the given name and `d_type`. -/
def mkDirent (name : String) (d_type : Nat) : Dirent := { d_name := name.toList, d_type := d_type }

/-- A directory holding two image files, a subdirectory, a hidden file, the parent
marker, a file that is not an image, and a hidden file named by the bare suffix. -/
def sampleListing : List Dirent :=
  [mkDirent "b.nes" 8, mkDirent "a.nes" 8, mkDirent "sub" 4, mkDirent ".hidden" 8,
   mkDirent ".." 4, mkDirent "notes.txt" 8, mkDirent ".nes" 8]

/-! ## Rendering -/

/-- Method `Entry::set_label`: the label is replaced (and the two textures regenerated). -/
def Entry.set_label {κ : Type} (e : Entry κ) (label : Str) : Entry κ := { e with label := label }

/-- The loop `for (int i = top; i < entries.size() && i < bottom; ++i)` of `Menu::render`,
from the index `i`: the entries it draws, in order. The first comparison is between an
`int` and a `size_t`; `fuel` bounds the number of rounds. -/
def Menu.renderRows {κ : Type} (m : Menu κ) : Nat → Int → List (Entry κ)
  | 0, _ => []
  | fuel + 1, i =>
    if toSizeT i < m.entries.length ∧ i < m.bottom then
      match m.entries[toSizeT i]? with
      | none => []
      | some e => e :: Menu.renderRows m fuel (i + 1)
    else []

/-- The entries that `Menu::render` draws, in order: the visible rows. The loop makes at
most `entries.size()` rounds. -/
def Menu.visible {κ : Type} (m : Menu κ) : List (Entry κ) :=
  m.renderRows m.entries.length m.top

/-- The positions of the entries marked selected, in increasing order, counted from
`start`. -/
def selectedFrom {κ : Type} : Nat → List (Entry κ) → List Nat
  | _, [] => []
  | start, e :: es =>
    if e.selected then start :: selectedFrom (start + 1) es else selectedFrom (start + 1) es

/-- The indices of the entries of a list that are marked selected. -/
def selectedIndices {κ : Type} (l : List (Entry κ)) : List Nat := selectedFrom 0 l

/-! ## `FileMenu::load_rom` and its collaborators -/

/-- The two functions of the cartridge loader (`cartridge.hpp`, not among the sources)
that `load_rom` calls, over the loader's own state `σ`: `Cartridge::load` and
`Cartridge::loaded`. -/
structure Cartridge (σ : Type) where
  load : Str → σ → σ
  loaded : σ → Bool

/-- The state that `FileMenu::load_rom` works on: the menu, the state of the cartridge
loader, the process-wide run/pause flag, and the number of calls of `toggle_pause` made
so far. -/
structure FileMenuState (σ : Type) where
  menu : Menu FileAction
  cart : σ
  pause : Bool
  toggles : Nat

/-- Modelled from the spec: `toggle_pause` is defined outside the sources; the run-control
collaborator toggles the process-wide pause/run flag. The call is counted. -/
def toggle_pause {σ : Type} (s : FileMenuState σ) : FileMenuState σ :=
  { s with pause := !s.pause, toggles := s.toggles + 1 }

/-- The object made by `new Entry("Load failed")`: the callback is the default `[]{}`. -/
def loadFailedEntry : Entry FileAction :=
  { label := "Load failed".toList, callback := FileAction.nothing, selected := false }

/-- Method `FileMenu::load_rom`. -/
def FileMenu.load_rom {σ : Type} (C : Cartridge σ) (s : FileMenuState σ) (path : Str) :
    FileMenuState σ :=
  let s1 : FileMenuState σ := { s with menu := s.menu.clear_error }
  let s2 : FileMenuState σ := { s1 with cart := C.load path s1.cart }
  if C.loaded s2.cart = false then
    { s2 with menu := { s2.menu with errorMessage := some loadFailedEntry.select } }
  else toggle_pause s2

/-- A loader that accepts exactly the path `ok.nes`, and forgets what was loaded before. -/
def sampleCartridge : Cartridge Bool :=
  { load := fun path _ => decide (path = "ok.nes".toList), loaded := fun c => c }

/-- A paused file menu holding two entries and an error entry left by an earlier load. -/
def sampleFileState : FileMenuState Bool :=
  { menu :=
      { cursor := 1, top := 0, bottom := 5,
        entries := [mkEntry "a.nes" (FileAction.load_rom "r/a.nes".toList),
          (mkEntry "b.nes" (FileAction.load_rom "r/b.nes".toList)).select],
        errorMessage := some loadFailedEntry.select },
    cart := false, pause := true, toggles := 0 }

/-! ## ControlEntry -/

/-- The two constructors of `ControlEntry`: over a key slot (`SDL_Scancode*`) or over a
button slot (`int*`). -/
inductive Binding where
  | key
  | button
deriving DecidableEq

/-- The function `std::to_string(int)`: the decimal form, with a minus sign when negative. -/
def to_string (v : Int) : Str := (toString v).toList

/-- The text shown for the value `v` of a binding slot: `SDL_GetScancodeName(v)` for a
key, `to_string(v)` for a button. The table `SDL_GetScancodeName` belongs to SDL and is
an argument. -/
def humanReadable (SDL_GetScancodeName : Int → Str) : Binding → Int → Str
  | Binding.key, v => SDL_GetScancodeName v
  | Binding.button, v => to_string v

/-- A `ControlEntry` together with the binding slot that its pointer `key` (or `button`)
refers to: the label and flag of the base `Entry`, the kind of slot, the child entry
`keyEntry`, and the value now in the slot. -/
structure ControlEntry where
  label : Str
  selected : Bool
  binding : Binding
  keyEntry : Entry Unit
  slot : Int
deriving DecidableEq

namespace ControlEntry

/-- The two constructors `ControlEntry::ControlEntry`, over a slot that holds `slot`: the
child entry is made from the text of the slot's value. -/
def new (SDL_GetScancodeName : Int → Str) (action : Str) (binding : Binding) (slot : Int) :
    ControlEntry :=
  { label := action, selected := false, binding := binding,
    keyEntry := { label := humanReadable SDL_GetScancodeName binding slot, callback := (),
                  selected := false },
    slot := slot }

/-- The callback of a `ControlEntry`, run by `trigger`, when `query_key()` (or
`query_button()`) returns `k`: the assignment `*(this->key) = query_key()` stores `k` in
the slot, and its value is the argument of the call that sets the label of `keyEntry`. -/
def trigger (SDL_GetScancodeName : Int → Str) (ce : ControlEntry) (k : Int) : ControlEntry :=
  let ce1 : ControlEntry := { ce with slot := k }
  { ce1 with
    keyEntry := ce1.keyEntry.set_label (humanReadable SDL_GetScancodeName ce1.binding ce1.slot) }

end ControlEntry

/-- A scancode table for the examples: 27 is the key `X`, any other code is unnamed. -/
def sampleScancodeName (v : Int) : Str := if v = 27 then ['X'] else []

/-! ## Further concrete inputs -/

/-- The directory of the first scenario of the specification, with the image suffix of
the code: two image files, a subdirectory, a hidden file and the parent marker. -/
def scenarioListing : List Dirent :=
  [mkDirent "b.nes" 8, mkDirent "a.nes" 8, mkDirent "sub" 4, mkDirent ".hidden" 8,
   mkDirent ".." 4]

/-- A menu of three entries labelled `b`, `c`, `a` with the cursor on index 1, whose
entry is the only one selected. -/
def menuBCA : Menu Char :=
  { cursor := 1, top := 0, bottom := 5,
    entries := [mkEntry "b" 'b', (mkEntry "c" 'c').select, mkEntry "a" 'a'],
    errorMessage := none }

/-- A menu of three entries labelled `c`, `b`, `a` with the cursor on index 1, whose
entry is the only one selected: the state after `add(c)`, `add(b)`, `add(a)` and one
"move down". -/
def menuCBA : Menu Char :=
  { cursor := 1, top := 0, bottom := 5,
    entries := [mkEntry "c" 'c', (mkEntry "b" 'b').select, mkEntry "a" 'a'],
    errorMessage := none }

/-- The operations `add(b)`, `add(c)`, `add(a)`, one "move down" and `sort_by_label`: from a
fresh menu they lead to the entries `a`, `b`, `c` with the cursor on index 1 and the marks
on `a` and `c`. -/
def opsSortAwayFromCursor : List (MenuOp Char) :=
  [MenuOp.add (mkEntry "b" 'b'), MenuOp.add (mkEntry "c" 'c'), MenuOp.add (mkEntry "a" 'a'),
   MenuOp.update (pressed [SDL_SCANCODE_DOWN]), MenuOp.sort_by_label]

end GUI

/-! # Theorems -/

namespace GUI

open Menu

variable {κ : Type}

/-! ## The viewport and `clear` -/

/-- Method `Menu::clear` assigns neither `top` nor `bottom`. -/
theorem clear_top_bottom (m : Menu κ) : m.clear.top = m.top ∧ m.clear.bottom = m.bottom :=
  ⟨rfl, rfl⟩

/-- After `clear` the viewport invariant fails whenever the viewport was scrolled. -/
theorem clear_not_viewportInv_of_scrolled (capacity : Int) (m : Menu κ) (h : 0 < m.top) :
    ¬ m.clear.ViewportInv capacity := by
  intro hinv
  have h1 : m.clear.top ≤ m.clear.cursor := hinv.1
  have h2 : m.clear.top = m.top := rfl
  have h3 : m.clear.cursor = 0 := rfl
  omega

theorem navigate_entries (m : Menu κ) (keys : KeyState) :
    (m.navigate keys).entries = m.entries := by
  unfold Menu.navigate Menu.clear_error
  dsimp only
  split_ifs <;> rfl

/-- The navigation step of `update` keeps the viewport invariant. -/
theorem navigate_viewportInv (capacity : Int) (m : Menu κ) (keys : KeyState)
    (h : m.ViewportInv capacity) : (m.navigate keys).ViewportInv capacity := by
  obtain ⟨h1, h2, h3⟩ := h
  unfold Menu.navigate Menu.clear_error Menu.ViewportInv
  dsimp only
  split_ifs <;> (try dsimp only) <;> omega

theorem update_fst_eq (m m1 : Menu κ) (keys : KeyState) (cbs : List κ)
    (h : m.update keys = some (m1, cbs)) :
    m1.cursor = (m.navigate keys).cursor ∧ m1.top = (m.navigate keys).top ∧
      m1.bottom = (m.navigate keys).bottom ∧
      m1.errorMessage = (m.navigate keys).errorMessage := by
  unfold Menu.update at h
  simp only at h
  split at h
  · exact absurd h (by simp)
  · split at h
    · exact absurd h (by simp)
    · split_ifs at h
      · split at h
        · exact absurd h (by simp)
        · simp only [Option.some.injEq, Prod.mk.injEq] at h
          obtain ⟨rfl, -⟩ := h
          exact ⟨rfl, rfl, rfl, rfl⟩
      · simp only [Option.some.injEq, Prod.mk.injEq] at h
        obtain ⟨rfl, -⟩ := h
        exact ⟨rfl, rfl, rfl, rfl⟩

/-- Every operation other than `clear` keeps the viewport invariant. -/
theorem step_viewportInv_of_ne_clear (capacity : Int) (m m1 : Menu κ) (op : MenuOp κ)
    (hne : op ≠ MenuOp.clear)
    (h : m.ViewportInv capacity) (hs : m.step op = some m1) : m1.ViewportInv capacity := by
  cases op with
  | add entry =>
    simp only [Menu.step, Option.some.injEq] at hs
    subst hs
    unfold Menu.add Menu.ViewportInv
    split_ifs <;> exact h
  | clear => exact absurd rfl hne
  | sort_by_label =>
    simp only [Menu.step, Option.some.injEq] at hs
    subst hs
    unfold Menu.sort_by_label Menu.ViewportInv
    split_ifs <;> exact h
  | update keys =>
    simp only [Menu.step, Option.map_eq_some', Prod.exists, exists_and_right, exists_eq_right] at hs
    obtain ⟨cbs, hu⟩ := hs
    obtain ⟨hc, ht, hb, -⟩ := update_fst_eq m m1 keys cbs hu
    have hn := navigate_viewportInv capacity m keys h
    unfold Menu.ViewportInv at hn ⊢
    rw [hc, ht, hb]
    exact hn

/-- A sequence of operations without `clear` keeps the viewport invariant. -/
theorem run_viewportInv_of_no_clear (capacity : Int) (ops : List (MenuOp κ)) :
    ∀ (m m1 : Menu κ), (∀ op ∈ ops, op ≠ MenuOp.clear) → m.ViewportInv capacity →
      m.run ops = some m1 → m1.ViewportInv capacity := by
  induction ops with
  | nil =>
    intro m m1 _ h hr
    simp only [Menu.run, Option.some.injEq] at hr
    exact hr ▸ h
  | cons op ops ih =>
    intro m m1 hno h hr
    simp only [Menu.run] at hr
    split at hr
    · exact absurd hr (by simp)
    · rename_i m2 hs
      exact ih m2 m1 (fun o ho => hno o (List.mem_cons_of_mem _ ho))
        (step_viewportInv_of_ne_clear capacity m m2 op (hno op (List.mem_cons_self _ _)) h hs) hr

/-- A fresh menu of positive capacity satisfies the viewport invariant. -/
theorem fresh_viewportInv (capacity : Int) (h : 0 < capacity) :
    (Menu.fresh κ capacity).ViewportInv capacity := by
  unfold Menu.fresh Menu.ViewportInv
  dsimp only
  omega

/-- C1 (the defect, evaluated): from a fresh menu of capacity 2, three `add`s and two
"move down" updates scroll the viewport to `[1, 3)`; `clear` then sets the cursor to 0
and leaves the viewport at `[1, 3)`, so `top ≤ cursor` fails in a reachable state. -/
theorem viewport_invariant_fails_after_clear :
    ∃ m : Menu Unit,
      (Menu.fresh Unit 2).run
        [MenuOp.add (mkEntry "a" ()), MenuOp.add (mkEntry "b" ()), MenuOp.add (mkEntry "c" ()),
         MenuOp.update (pressed [SDL_SCANCODE_DOWN]), MenuOp.update (pressed [SDL_SCANCODE_DOWN]),
         MenuOp.clear] = some m ∧
      m.cursor = 0 ∧ m.top = 1 ∧ m.bottom = 3 ∧ ¬ m.ViewportInv 2 := by
  refine ⟨_, rfl, ?_, ?_, ?_, ?_⟩ <;> decide

/-- C2 (the defect, evaluated): in the menu reached from a fresh menu of capacity 2 by
three `add`s and two "move down" updates, the viewport is `[1, 3)`, and it is still
`[1, 3)` after `clear`, not the initial `[0, 2)`. -/
theorem clear_leaves_viewport_scrolled :
    ∃ m : Menu Unit,
      (Menu.fresh Unit 2).run
        [MenuOp.add (mkEntry "a" ()), MenuOp.add (mkEntry "b" ()), MenuOp.add (mkEntry "c" ()),
         MenuOp.update (pressed [SDL_SCANCODE_DOWN]),
         MenuOp.update (pressed [SDL_SCANCODE_DOWN])] = some m ∧
      (m.top, m.bottom) = (1, 3) ∧ (m.clear.top, m.clear.bottom) = (1, 3) := by
  refine ⟨_, rfl, ?_, ?_⟩ <;> decide

/-- C3: for every prior menu state, `clear` yields an empty entry list, cursor 0 and no
error entry. -/
theorem clear_resets_entries_cursor_error (m : Menu κ) :
    m.clear.entries = [] ∧ m.clear.cursor = 0 ∧ m.clear.errorMessage = none :=
  ⟨rfl, rfl, rfl⟩

/-! ## `add` -/

theorem add_of_ne_nil (m : Menu κ) (e : Entry κ) (h : m.entries ≠ []) :
    m.add e = { m with entries := m.entries ++ [e] } := by
  unfold Menu.add
  rw [if_neg]
  simpa using h

theorem foldl_add_of_ne_nil (es : List (Entry κ)) :
    ∀ m : Menu κ, m.entries ≠ [] →
      es.foldl Menu.add m = { m with entries := m.entries ++ es } := by
  induction es with
  | nil => intro m _; simp
  | cons e es ih =>
    intro m h
    rw [List.foldl_cons, add_of_ne_nil m e h, ih _ (by simp)]
    simp

theorem foldl_add_of_nil (m : Menu κ) (e : Entry κ) (rest : List (Entry κ))
    (hm : m.entries = []) :
    (e :: rest).foldl Menu.add m = { m with entries := e.select :: rest } := by
  have h1 : m.add e = { m with entries := [e.select] } := by
    unfold Menu.add
    rw [if_pos (by simp [hm]), hm]
    rfl
  rw [List.foldl_cons, h1, foldl_add_of_ne_nil rest _ (by simp)]
  simp

/-- C4: starting from an empty menu (no entries, cursor 0), after any non-empty
sequence `es` of `add` calls of unselected entries the list holds the added entries in
insertion order, the first of them selected and no other (so exactly one entry is
selected and it is at index 0), and the cursor is still 0. -/
theorem add_sequence_selects_first (m : Menu κ) (es : List (Entry κ)) (hne : es ≠ [])
    (hm : m.entries = []) (hc : m.cursor = 0) (hun : ∀ x ∈ es, x.selected = false) :
    (es.foldl Menu.add m).entries = es.modifyHead Entry.select ∧
      (es.foldl Menu.add m).entries.map Entry.ident = es.map Entry.ident ∧
      ((es.foldl Menu.add m).entries.filter (fun x => x.selected)).length = 1 ∧
      (∀ i x, (es.foldl Menu.add m).entries[i]? = some x → (x.selected = true ↔ i = 0)) ∧
      (es.foldl Menu.add m).cursor = 0 := by
  obtain ⟨e, rest, rfl⟩ := List.exists_cons_of_ne_nil hne
  rw [foldl_add_of_nil m e rest hm]
  have hrest : ∀ x ∈ rest, x.selected = false := fun x hx => hun x (List.mem_cons_of_mem _ hx)
  refine ⟨rfl, ?_, ?_, ?_, hc⟩
  · simp [Entry.ident, Entry.select]
  · have hf : rest.filter (fun x => x.selected) = [] := by
      rw [List.filter_eq_nil_iff]
      intro x hx
      simp [hrest x hx]
    simp [List.filter_cons, Entry.select, hf]
  · intro i x hx
    cases i with
    | zero =>
      simp only [List.getElem?_cons_zero, Option.some.injEq] at hx
      subst hx
      simp [Entry.select]
    | succ j =>
      simp only [List.getElem?_cons_succ] at hx
      have hmem : x ∈ rest := List.getElem?_mem hx
      simp [hrest x hmem]

/-- C4 at a concrete input: two unselected entries added to a fresh menu. -/
theorem add_sequence_selects_first_witness :
    ([mkEntry "a" 1, mkEntry "b" 2].foldl Menu.add (Menu.fresh Nat 5)).entries
        = [(mkEntry "a" 1).select, mkEntry "b" 2] ∧
      ([mkEntry "a" 1, mkEntry "b" 2].foldl Menu.add (Menu.fresh Nat 5)).cursor = 0 :=
  have h := add_sequence_selects_first (Menu.fresh Nat 5) [mkEntry "a" 1, mkEntry "b" 2]
    (by decide) rfl rfl (by decide)
  ⟨h.1, h.2.2.2.2⟩

/-! ## `update` on a menu whose cursor is an index of the list -/

theorem toSizeT_of_nonneg (i : Int) (h0 : 0 ≤ i) (h1 : i < SIZE_T_MOD) :
    toSizeT i = i.toNat := by
  unfold toSizeT
  rw [Int.emod_eq_of_lt h0 h1]

theorem sizeMinusOne_of_pos (n : Nat) (h0 : 0 < n) (h1 : n < SIZE_T_MOD) :
    sizeMinusOne n = n - 1 := by
  unfold sizeMinusOne
  have h : n + SIZE_T_MOD - 1 = (n - 1) + SIZE_T_MOD := by omega
  rw [h, Nat.add_mod_right, Nat.mod_eq_of_lt (by omega)]

theorem modifyAt_of_lt {α : Type} (f : α → α) (i : Nat) (l : List α) (h : i < l.length) :
    modifyAt f i l = some (l.set i (f (l.get ⟨i, h⟩))) := by
  unfold modifyAt
  rw [List.getElem?_eq_getElem h]
  rfl

theorem map_ident_set_unselect (l : List (Entry κ)) (i : Nat) (h : i < l.length) :
    (l.set i (l.get ⟨i, h⟩).unselect).map Entry.ident = l.map Entry.ident := by
  rw [List.map_set]
  apply List.ext_getElem
  · simp
  · intro n h1 h2
    rw [List.getElem_set]
    split_ifs with hn
    · subst hn; simp [Entry.ident, Entry.unselect]
    · rfl

theorem map_ident_set_select (l : List (Entry κ)) (i : Nat) (h : i < l.length) :
    (l.set i (l.get ⟨i, h⟩).select).map Entry.ident = l.map Entry.ident := by
  rw [List.map_set]
  apply List.ext_getElem
  · simp
  · intro n h1 h2
    rw [List.getElem_set]
    split_ifs with hn
    · subst hn; simp [Entry.ident, Entry.select]
    · rfl

theorem callback_eq_of_map_ident (l1 l2 : List (Entry κ))
    (h : l1.map Entry.ident = l2.map Entry.ident) (j : Nat) (e1 e2 : Entry κ)
    (h1 : l1[j]? = some e1) (h2 : l2[j]? = some e2) : e1.callback = e2.callback := by
  have := congrArg (fun l => l[j]?) h
  simp only [List.getElem?_map, h1, h2, Option.map_some', Option.some.injEq, Entry.ident,
    Prod.mk.injEq] at this
  exact this.2

/-- The cursor after the navigation step, when the cursor is an index of the list: the
unsigned comparison `cursor < entries.size() - 1` is then the plain `cursor + 1 < size`. -/
theorem navigate_of_valid (m : Menu κ) (keys : KeyState) (h0 : 0 ≤ m.cursor)
    (h1 : m.cursor < m.entries.length) (h2 : m.entries.length < SIZE_T_MOD) :
    m.navigate keys =
      if keys SDL_SCANCODE_DOWN ≠ 0 ∧ m.cursor + 1 < m.entries.length then
        if m.cursor + 1 = m.bottom then
          { m with cursor := m.cursor + 1, bottom := m.bottom + 1, top := m.top + 1,
                   errorMessage := none }
        else { m with cursor := m.cursor + 1, errorMessage := none }
      else if keys SDL_SCANCODE_UP ≠ 0 ∧ m.cursor > 0 then
        if m.cursor - 1 < m.top then
          { m with cursor := m.cursor - 1, top := m.top - 1, bottom := m.bottom - 1,
                   errorMessage := none }
        else { m with cursor := m.cursor - 1, errorMessage := none }
      else m := by
  have ht : toSizeT m.cursor = m.cursor.toNat :=
    toSizeT_of_nonneg _ h0 (by exact_mod_cast lt_trans h1 (by exact_mod_cast h2))
  have hs : sizeMinusOne m.entries.length = m.entries.length - 1 :=
    sizeMinusOne_of_pos _ (by omega) h2
  have hiff : m.cursor.toNat < m.entries.length - 1 ↔ m.cursor + 1 < m.entries.length := by
    omega
  unfold Menu.navigate Menu.clear_error
  dsimp only
  simp only [ht, hs, hiff]
  split_ifs <;> rfl

theorem navigate_cursor_valid (m : Menu κ) (keys : KeyState) (h0 : 0 ≤ m.cursor)
    (h1 : m.cursor < m.entries.length) (h2 : m.entries.length < SIZE_T_MOD) :
    0 ≤ (m.navigate keys).cursor ∧ (m.navigate keys).cursor < m.entries.length := by
  rw [navigate_of_valid m keys h0 h1 h2]
  split_ifs <;> (try dsimp only) <;> omega

/-- On a menu whose cursor is an index of the list, `update` returns: it leaves the
navigated menu with the same entry objects in the same order, and invokes the callback of
the entry at the new cursor when "confirm" is pressed, and nothing otherwise. -/
theorem update_of_valid (m : Menu κ) (keys : KeyState) (h0 : 0 ≤ m.cursor)
    (h1 : m.cursor < m.entries.length) (h2 : m.entries.length < SIZE_T_MOD) :
    ∃ (es2 : List (Entry κ)) (e : Entry κ),
      es2.map Entry.ident = m.entries.map Entry.ident ∧
      m.entries[(m.navigate keys).cursor.toNat]? = some e ∧
      m.update keys = some ({ m.navigate keys with entries := es2 },
        if keys SDL_SCANCODE_RETURN ≠ 0 then [e.callback] else []) := by
  obtain ⟨hn0, hn1⟩ := navigate_cursor_valid m keys h0 h1 h2
  have hlt : (m.entries.length : Int) < SIZE_T_MOD := by exact_mod_cast h2
  have ht : toSizeT m.cursor = m.cursor.toNat := toSizeT_of_nonneg _ h0 (lt_trans h1 hlt)
  have ht1 : toSizeT (m.navigate keys).cursor = (m.navigate keys).cursor.toNat :=
    toSizeT_of_nonneg _ hn0 (lt_trans hn1 hlt)
  have hi : m.cursor.toNat < (m.navigate keys).entries.length := by
    rw [navigate_entries]; omega
  have hj : (m.navigate keys).cursor.toNat <
      ((m.navigate keys).entries.set m.cursor.toNat
        ((m.navigate keys).entries.get ⟨m.cursor.toNat, hi⟩).unselect).length := by
    rw [List.length_set, navigate_entries]; omega
  have hk : (m.navigate keys).cursor.toNat < m.entries.length := by omega
  refine ⟨((m.navigate keys).entries.set m.cursor.toNat
      ((m.navigate keys).entries.get ⟨m.cursor.toNat, hi⟩).unselect).set
        (m.navigate keys).cursor.toNat
        ((((m.navigate keys).entries.set m.cursor.toNat
          ((m.navigate keys).entries.get ⟨m.cursor.toNat, hi⟩).unselect)).get
            ⟨(m.navigate keys).cursor.toNat, hj⟩).select,
    m.entries.get ⟨(m.navigate keys).cursor.toNat, hk⟩, ?_, ?_, ?_⟩
  rotate_left
  · exact List.getElem?_eq_getElem hk
  · unfold Menu.update
    dsimp only
    rw [ht, ht1, modifyAt_of_lt _ _ _ hi]
    dsimp only
    rw [modifyAt_of_lt _ _ _ hj]
    dsimp only
    split_ifs with hret
    · rw [List.getElem?_eq_getElem (by rw [List.length_set]; exact hj)]
      dsimp only
      rw [Option.some.injEq, Prod.mk.injEq, List.cons.injEq]
      refine ⟨rfl, ?_, rfl⟩
      exact callback_eq_of_map_ident _ _
        (((map_ident_set_select _ _ hj).trans (map_ident_set_unselect _ _ hi)).trans
          (congrArg (List.map Entry.ident) (navigate_entries m keys))) _ _ _
        (List.getElem?_eq_getElem _) (List.getElem?_eq_getElem hk)
    · rfl
  · exact ((map_ident_set_select _ _ hj).trans (map_ident_set_unselect _ _ hi)).trans
      (congrArg (List.map Entry.ident) (navigate_entries m keys))

/-! ## `update` at the ends of the list -/

/-- C5 as stated fails: in the two-entry menu reached by `add(A)`, `add(B)` and one
"move down", the cursor is on the last entry; with "move down" and "move up" both
pressed (confirm not pressed) `update` moves the cursor from 1 to 0. -/
theorem down_at_last_with_up_pressed_moves :
    ∃ m : Menu Char,
      menuAB.run [MenuOp.update (pressed [SDL_SCANCODE_DOWN])] = some m ∧
      m.entries ≠ [] ∧ m.cursor = (m.entries.length : Int) - 1 ∧
      pressed [SDL_SCANCODE_DOWN, SDL_SCANCODE_UP] SDL_SCANCODE_DOWN ≠ 0 ∧
      pressed [SDL_SCANCODE_DOWN, SDL_SCANCODE_UP] SDL_SCANCODE_RETURN = 0 ∧
      m.cursor = 1 ∧
      (m.update (pressed [SDL_SCANCODE_DOWN, SDL_SCANCODE_UP])).map (fun r => r.1.cursor)
        = some 0 := by
  refine ⟨_, rfl, ?_, ?_, ?_, ?_, ?_, ?_⟩ <;> decide

/-- C5, amended: on a non-empty menu with the cursor on the last entry, with "move
down" pressed and "confirm" not pressed, `update` returns without invoking a callback,
and it leaves cursor, top and bottom unchanged exactly when "move up" is not pressed as
well or the cursor is 0. -/
theorem update_down_at_last (m : Menu κ) (keys : KeyState) (hne : m.entries ≠ [])
    (hlen : m.entries.length < SIZE_T_MOD) (hc : m.cursor = (m.entries.length : Int) - 1)
    (_hd : keys SDL_SCANCODE_DOWN ≠ 0) (hr : keys SDL_SCANCODE_RETURN = 0) :
    ∃ m1, m.update keys = some (m1, []) ∧
      ((m1.cursor = m.cursor ∧ m1.top = m.top ∧ m1.bottom = m.bottom) ↔
        (keys SDL_SCANCODE_UP = 0 ∨ m.cursor = 0)) := by
  have hpos : 0 < m.entries.length := List.length_pos.mpr hne
  have h0 : 0 ≤ m.cursor := by omega
  have h1 : m.cursor < m.entries.length := by omega
  obtain ⟨es2, e, -, -, hu⟩ := update_of_valid m keys h0 h1 hlen
  rw [if_neg (by simp [hr])] at hu
  refine ⟨_, hu, ?_⟩
  dsimp only
  rw [navigate_of_valid m keys h0 h1 hlen, if_neg (by omega)]
  split_ifs with hup htop
  · dsimp only
    constructor
    · intro h; omega
    · intro h; rcases h with h | h
      · exact absurd h hup.1
      · omega
  · dsimp only
    constructor
    · intro h; omega
    · intro h; rcases h with h | h
      · exact absurd h hup.1
      · omega
  · constructor
    · intro _
      by_cases hk : keys SDL_SCANCODE_UP = 0
      · exact Or.inl hk
      · right; by_contra hz; exact hup ⟨hk, by omega⟩
    · intro _; exact ⟨rfl, rfl, rfl⟩

/-- C5, amended, at a concrete input: two entries, cursor on the second, only "move
down" pressed. -/
theorem update_down_at_last_witness :
    ∃ m1, ({ menuAB with cursor := 1 } : Menu Char).update (pressed [SDL_SCANCODE_DOWN])
        = some (m1, []) ∧
      ((m1.cursor = 1 ∧ m1.top = 0 ∧ m1.bottom = 5) ↔
        (pressed [SDL_SCANCODE_DOWN] SDL_SCANCODE_UP = 0 ∨ (1 : Int) = 0)) :=
  update_down_at_last ({ menuAB with cursor := 1 } : Menu Char) (pressed [SDL_SCANCODE_DOWN])
    (by decide) (by decide) (by decide) (by decide) (by decide)

/-- C6 as stated fails: in the two-entry menu reached by `add(A)` and `add(B)` the
cursor is 0; with "move up" and "move down" both pressed (confirm not pressed) `update`
moves the cursor from 0 to 1. -/
theorem up_at_first_with_down_pressed_moves :
    menuAB.entries ≠ [] ∧ menuAB.cursor = 0 ∧
      pressed [SDL_SCANCODE_UP, SDL_SCANCODE_DOWN] SDL_SCANCODE_UP ≠ 0 ∧
      pressed [SDL_SCANCODE_UP, SDL_SCANCODE_DOWN] SDL_SCANCODE_RETURN = 0 ∧
      (menuAB.update (pressed [SDL_SCANCODE_UP, SDL_SCANCODE_DOWN])).map (fun r => r.1.cursor)
        = some 1 := by
  refine ⟨?_, ?_, ?_, ?_, ?_⟩ <;> decide

/-- C6, amended: on a non-empty menu with cursor 0, with "move up" pressed and "confirm"
not pressed, `update` returns without invoking a callback, and it leaves cursor, top and
bottom unchanged exactly when "move down" is not pressed as well or the list has a
single entry. -/
theorem update_up_at_first (m : Menu κ) (keys : KeyState) (hne : m.entries ≠ [])
    (hlen : m.entries.length < SIZE_T_MOD) (hc : m.cursor = 0)
    (_hu : keys SDL_SCANCODE_UP ≠ 0) (hr : keys SDL_SCANCODE_RETURN = 0) :
    ∃ m1, m.update keys = some (m1, []) ∧
      ((m1.cursor = m.cursor ∧ m1.top = m.top ∧ m1.bottom = m.bottom) ↔
        (keys SDL_SCANCODE_DOWN = 0 ∨ m.entries.length = 1)) := by
  have hpos : 0 < m.entries.length := List.length_pos.mpr hne
  have h0 : 0 ≤ m.cursor := by omega
  have h1 : m.cursor < m.entries.length := by omega
  obtain ⟨es2, e, -, -, hupd⟩ := update_of_valid m keys h0 h1 hlen
  rw [if_neg (by simp [hr])] at hupd
  refine ⟨_, hupd, ?_⟩
  dsimp only
  rw [navigate_of_valid m keys h0 h1 hlen]
  split_ifs with hdown hbot hup
  · dsimp only
    constructor
    · intro h; omega
    · intro h; rcases h with h | h
      · exact absurd h hdown.1
      · omega
  · dsimp only
    constructor
    · intro h; omega
    · intro h; rcases h with h | h
      · exact absurd h hdown.1
      · omega
  · omega
  · omega
  · constructor
    · intro _
      by_cases hk : keys SDL_SCANCODE_DOWN = 0
      · exact Or.inl hk
      · right; by_contra hz; exact hdown ⟨hk, by omega⟩
    · intro _; exact ⟨rfl, rfl, rfl⟩

/-- C6, amended, at a concrete input: two entries, cursor 0, only "move up" pressed. -/
theorem update_up_at_first_witness :
    ∃ m1, menuAB.update (pressed [SDL_SCANCODE_UP]) = some (m1, []) ∧
      ((m1.cursor = menuAB.cursor ∧ m1.top = menuAB.top ∧ m1.bottom = menuAB.bottom) ↔
        (pressed [SDL_SCANCODE_UP] SDL_SCANCODE_DOWN = 0 ∨ menuAB.entries.length = 1)) :=
  update_up_at_first menuAB (pressed [SDL_SCANCODE_UP])
    (by decide) (by decide) (by decide) (by decide) (by decide)

/-! ## `update`: moving down, and confirming -/

/-- C7: on a menu whose cursor is an index of the list below the last one
(`cursor < entries.size() - 1`), with "move down" pressed, `update` returns and sets the
cursor to `cursor + 1`; exactly when the new cursor equals `bottom` the viewport goes from
`[top, bottom)` to `[top + 1, bottom + 1)`, and otherwise it is unchanged; so the viewport
moves by at most one row. -/
theorem update_down_moves_cursor (m : Menu κ) (keys : KeyState) (h0 : 0 ≤ m.cursor)
    (h1 : m.cursor + 1 < m.entries.length) (h2 : m.entries.length < SIZE_T_MOD)
    (hd : keys SDL_SCANCODE_DOWN ≠ 0) :
    ∃ m1 cbs, m.update keys = some (m1, cbs) ∧ m1.cursor = m.cursor + 1 ∧
      (m.cursor + 1 = m.bottom → m1.top = m.top + 1 ∧ m1.bottom = m.bottom + 1) ∧
      (m.cursor + 1 ≠ m.bottom → m1.top = m.top ∧ m1.bottom = m.bottom) ∧
      m1.top - m.top = m1.bottom - m.bottom ∧ 0 ≤ m1.top - m.top ∧ m1.top - m.top ≤ 1 := by
  obtain ⟨es2, e, -, -, hu⟩ := update_of_valid m keys h0 (by omega) h2
  refine ⟨_, _, hu, ?_⟩
  dsimp only
  rw [navigate_of_valid m keys h0 (by omega) h2, if_pos ⟨hd, h1⟩]
  split_ifs with hb
  · dsimp only
    refine ⟨rfl, fun _ => ⟨rfl, rfl⟩, fun h => absurd hb h, ?_, ?_, ?_⟩ <;> omega
  · dsimp only
    refine ⟨rfl, fun h => absurd h hb, fun _ => ⟨rfl, rfl⟩, ?_, ?_, ?_⟩ <;> omega

/-- C7 at the input of the specification: ten entries, viewport `[0, 5)`, cursor 4;
"move down" gives cursor 5 and viewport `[1, 6)`. -/
theorem update_down_moves_cursor_witness :
    (menuTen.update (pressed [SDL_SCANCODE_DOWN])).map (fun r => (r.1.cursor, r.1.top, r.1.bottom))
      = some (5, 1, 6) := by
  obtain ⟨m1, cbs, hu, hc, hshift, -⟩ :=
    update_down_moves_cursor menuTen (pressed [SDL_SCANCODE_DOWN])
      (by decide) (by decide) (by decide) (by decide)
  obtain ⟨ht, hb⟩ := hshift (by decide)
  rw [hu, Option.map_some', hc, ht, hb]
  rfl

/-- C8: on a menu whose cursor is an index of the list, with "confirm" pressed (and
whatever movement keys), `update` returns and invokes exactly one callback: that of the
entry at the cursor position after the movement, in the list before the call as in the
list after it. -/
theorem update_confirm_triggers_entry_at_new_cursor (m : Menu κ) (keys : KeyState)
    (h0 : 0 ≤ m.cursor) (h1 : m.cursor < m.entries.length)
    (h2 : m.entries.length < SIZE_T_MOD) (hret : keys SDL_SCANCODE_RETURN ≠ 0) :
    ∃ m1 e, m.update keys = some (m1, [e.callback]) ∧
      m1.cursor =
        (if keys SDL_SCANCODE_DOWN ≠ 0 ∧ m.cursor + 1 < m.entries.length then m.cursor + 1
         else if keys SDL_SCANCODE_UP ≠ 0 ∧ m.cursor > 0 then m.cursor - 1
         else m.cursor) ∧
      m.entries[m1.cursor.toNat]? = some e ∧
      m1.entries[m1.cursor.toNat]?.map Entry.ident = some e.ident := by
  obtain ⟨es2, e, hid, he, hu⟩ := update_of_valid m keys h0 h1 h2
  rw [if_pos hret] at hu
  refine ⟨_, e, hu, ?_, he, ?_⟩
  · dsimp only
    rw [navigate_of_valid m keys h0 h1 h2]
    split_ifs <;> rfl
  · dsimp only
    have := congrArg (fun l => l[(m.navigate keys).cursor.toNat]?) hid
    simp only [List.getElem?_map, he, Option.map_some'] at this
    exact this

/-- C8 at the input of the specification: after `add(A)` and `add(B)`, an update with
"move down" and "confirm" pressed invokes the callback of `B` and no other. -/
theorem update_confirm_triggers_entry_at_new_cursor_witness :
    (menuAB.update (pressed [SDL_SCANCODE_DOWN, SDL_SCANCODE_RETURN])).map Prod.snd
      = some ['B'] := by
  obtain ⟨m1, e, hu, hc, he, -⟩ :=
    update_confirm_triggers_entry_at_new_cursor menuAB
      (pressed [SDL_SCANCODE_DOWN, SDL_SCANCODE_RETURN])
      (by decide) (by decide) (by decide) (by decide)
  rw [hc] at he
  have hb : e = mkEntry "B" 'B' := (Option.some.inj he).symm
  rw [hu, hb]
  rfl

/-! ## `sort_by_label` -/

/-- The comparison `strLess` is the lexicographic order of the character values. -/
theorem strLess_iff_lex (a : Str) :
    ∀ b : Str, strLess a b = true ↔ List.Lex (fun x y : Char => x.toNat < y.toNat) a b := by
  induction a with
  | nil =>
    intro b
    cases b with
    | nil => simp [strLess]
    | cons y ys => simp [strLess, List.Lex.nil]
  | cons x xs ih =>
    intro b
    cases b with
    | nil => simp [strLess]
    | cons y ys =>
      unfold strLess
      split_ifs with h1 h2
      · exact iff_of_true rfl (List.Lex.rel h1)
      · simp only [Bool.false_eq_true, false_iff]
        intro h
        cases h with
        | cons h => omega
        | rel h => omega
      · have hxy : x = y := by
          apply Char.ext
          apply UInt32.ext
          have : x.toNat = y.toNat := by omega
          exact this
        subst hxy
        rw [ih ys]
        constructor
        · intro h; exact List.Lex.cons h
        · intro h
          cases h with
          | cons h => exact h
          | rel h => omega

theorem strLess_asymm (a : Str) : ∀ b : Str, strLess a b = true → strLess b a = false := by
  induction a with
  | nil => intro b; cases b <;> simp [strLess]
  | cons x xs ih =>
    intro b
    cases b with
    | nil => simp [strLess]
    | cons y ys =>
      unfold strLess
      split_ifs <;> first | omega | simp | exact ih ys

theorem strLess_le_trans (a : Str) :
    ∀ b c : Str, strLess b a = false → strLess c b = false → strLess c a = false := by
  induction a with
  | nil => intro b c _ _; cases c <;> simp [strLess]
  | cons x xs ih =>
    intro b c hab hbc
    cases b with
    | nil => simp [strLess] at hab
    | cons y ys =>
      cases c with
      | nil => simp [strLess] at hbc
      | cons z zs =>
        unfold strLess at hab hbc ⊢
        split_ifs at hab hbc ⊢ <;>
          first | omega | rfl | exact ih ys zs hab hbc

theorem orderedInsertBy_perm {α : Type} (comp : α → α → Bool) (x : α) :
    ∀ l : List α, (orderedInsertBy comp x l).Perm (x :: l) := by
  intro l
  induction l with
  | nil => exact List.Perm.refl _
  | cons y ys ih =>
    unfold orderedInsertBy
    split_ifs
    · exact List.Perm.refl _
    · exact (List.Perm.cons y ih).trans (List.Perm.swap x y ys)

theorem stdSort_perm {α : Type} (comp : α → α → Bool) :
    ∀ l : List α, (stdSort comp l).Perm l := by
  intro l
  induction l with
  | nil => exact List.Perm.refl _
  | cons x xs ih =>
    unfold stdSort
    exact (orderedInsertBy_perm comp x _).trans (List.Perm.cons x ih)

theorem orderedInsertBy_pairwise {α : Type} (comp : α → α → Bool)
    (hasym : ∀ a b, comp a b = true → comp b a = false)
    (htrans : ∀ a b c, comp b a = false → comp c b = false → comp c a = false) (x : α) :
    ∀ l : List α, l.Pairwise (fun a b => comp b a = false) →
      (orderedInsertBy comp x l).Pairwise (fun a b => comp b a = false) := by
  intro l
  induction l with
  | nil => intro _; simp [orderedInsertBy]
  | cons y ys ih =>
    intro h
    rw [List.pairwise_cons] at h
    unfold orderedInsertBy
    split_ifs with hc
    · rw [List.pairwise_cons]
      refine ⟨?_, List.pairwise_cons.mpr h⟩
      intro z hz
      rcases List.mem_cons.mp hz with rfl | hz
      · exact hasym _ _ hc
      · exact htrans x y z (hasym _ _ hc) (h.1 z hz)
    · rw [List.pairwise_cons]
      refine ⟨?_, ih h.2⟩
      intro z hz
      rcases List.mem_cons.mp ((orderedInsertBy_perm comp x ys).mem_iff.mp hz) with rfl | hz
      · simpa using hc
      · exact h.1 z hz

theorem stdSort_pairwise {α : Type} (comp : α → α → Bool)
    (hasym : ∀ a b, comp a b = true → comp b a = false)
    (htrans : ∀ a b c, comp b a = false → comp c b = false → comp c a = false) :
    ∀ l : List α, (stdSort comp l).Pairwise (fun a b => comp b a = false) := by
  intro l
  induction l with
  | nil => simp [stdSort]
  | cons x xs ih =>
    unfold stdSort
    exact orderedInsertBy_pairwise comp hasym htrans x _ ih

theorem map_ident_modifyHead_select (l : List (Entry κ)) :
    (l.modifyHead Entry.select).map Entry.ident = l.map Entry.ident := by
  cases l <;> simp [List.modifyHead, Entry.ident, Entry.select]

theorem map_ident_modifyHead_unselect (l : List (Entry κ)) :
    (l.modifyHead Entry.unselect).map Entry.ident = l.map Entry.ident := by
  cases l <;> simp [List.modifyHead, Entry.ident, Entry.unselect]

/-- The entries after `sort_by_label`: the same objects, rearranged so that no entry is
followed, at any distance, by one whose label is smaller. -/
theorem sort_by_label_entries (m : Menu κ) :
    (m.sort_by_label.entries.map Entry.ident).Perm (m.entries.map Entry.ident) ∧
      (m.sort_by_label.entries.map Entry.label).Pairwise (fun a b => strLess b a = false) := by
  unfold Menu.sort_by_label
  split_ifs with h
  · have hnil : m.entries = [] := by simpa using h
    rw [hnil]
    exact ⟨List.Perm.refl _, List.Pairwise.nil⟩
  · dsimp only
    constructor
    · rw [map_ident_modifyHead_select]
      exact ((stdSort_perm labelLess _).map Entry.ident).trans
        (by rw [map_ident_modifyHead_unselect])
    · have hl : ∀ l : List (Entry κ),
          (l.modifyHead Entry.select).map Entry.label = l.map Entry.label := by
        intro l; cases l <;> simp [List.modifyHead, Entry.select]
      rw [hl, List.pairwise_map]
      exact stdSort_pairwise labelLess
        (fun a b => strLess_asymm a.label b.label)
        (fun a b c => strLess_le_trans a.label b.label c.label) _

/-- C9: after `sort_by_label` the entry list is a rearrangement of the list before the
call (the same labels and callbacks, each as often as before), its labels are in
non-decreasing lexicographic order (no label is followed by a smaller one), and on an
empty list the call changes nothing. -/
theorem sort_by_label_sorted_perm (m : Menu κ) :
    (m.sort_by_label.entries.map Entry.ident).Perm (m.entries.map Entry.ident) ∧
      (m.sort_by_label.entries.map Entry.label).Pairwise
        (fun a b => ¬ List.Lex (fun x y : Char => x.toNat < y.toNat) b a) ∧
      (m.entries = [] → m.sort_by_label = m) := by
  refine ⟨(sort_by_label_entries m).1, ?_, ?_⟩
  · refine (sort_by_label_entries m).2.imp ?_
    intro a b h hlex
    rw [← strLess_iff_lex, h] at hlex
    exact Bool.false_ne_true hlex
  · intro h
    unfold Menu.sort_by_label
    rw [if_pos (by simp [h])]

/-! ## `change_dir` -/

theorem getD_zero_eq_dot_iff (name : Str) :
    name.getD 0 (Char.ofNat 0) = '.' ↔ ['.'] <+: name := by
  cases name with
  | nil => simp
  | cons c cs =>
    simp only [List.getD_cons_zero]
    constructor
    · intro h; exact ⟨cs, by rw [h]; rfl⟩
    · rintro ⟨t, ht⟩
      simp only [List.singleton_append, List.cons.injEq] at ht
      exact ht.1.symm

/-- For a name that is not hidden, the test of the code, `name.size() > 4` and
`name.substr(name.size() - 4) == ".nes"`, is the same as ending in `.nes`: the one name
that ends in `.nes` and fails the length test is `.nes` itself, which is hidden. -/
theorem length_test_iff_hasImageEnding (name : Str) (hvis : ¬ isHiddenName name) :
    (name.length > 4 ∧ lastFour name = ['.', 'n', 'e', 's']) ↔ hasImageEnding name := by
  unfold hasImageEnding lastFour
  constructor
  · rintro ⟨-, h⟩
    exact ⟨name.take (name.length - 4), by rw [← h]; exact List.take_append_drop _ _⟩
  · rintro ⟨t, ht⟩
    have hlen : name.length = t.length + 4 := by rw [← ht]; simp
    constructor
    · cases t with
      | nil =>
        exfalso
        apply hvis
        rw [← ht]
        exact ⟨⟨['n', 'e', 's'], rfl⟩, by decide⟩
      | cons c cs => rw [hlen]; simp
    · rw [hlen, ← ht]
      simp

theorem visit_eq (dir : Str) (m : Menu FileAction) (d : Dirent) :
    FileMenu.visit dir m d = if isAdmitted d then m.add (entryFor dir d) else m := by
  unfold FileMenu.visit isAdmitted entryFor
  dsimp only
  by_cases hh : isHiddenName d.d_name
  · have hc : d.d_name.getD 0 (Char.ofNat 0) = '.' ∧ d.d_name ≠ ['.', '.'] :=
      ⟨(getD_zero_eq_dot_iff _).mpr hh.1, hh.2⟩
    rw [if_pos hc, if_neg (fun h => h.1 hh)]
  · have hc : ¬ (d.d_name.getD 0 (Char.ofNat 0) = '.' ∧ d.d_name ≠ ['.', '.']) :=
      fun h => hh ⟨(getD_zero_eq_dot_iff _).mp h.1, h.2⟩
    rw [if_neg hc]
    by_cases hd : d.d_type = DT_DIR
    · rw [if_pos hd, if_pos ⟨hh, Or.inl hd⟩, if_pos hd]
    · rw [if_neg hd, if_neg hd]
      by_cases hs : hasImageEnding d.d_name
      · rw [if_pos ((length_test_iff_hasImageEnding _ hh).mpr hs), if_pos ⟨hh, Or.inr hs⟩]
      · rw [if_neg (fun h => hs ((length_test_iff_hasImageEnding _ hh).mp h)),
          if_neg (fun h => h.2.elim hd hs)]

theorem foldl_visit_eq (dir : Str) (listing : List Dirent) :
    ∀ m : Menu FileAction,
      listing.foldl (FileMenu.visit dir) m =
        ((listing.filter (fun d => decide (isAdmitted d))).map (entryFor dir)).foldl Menu.add m := by
  induction listing with
  | nil => intro m; rfl
  | cons d ds ih =>
    intro m
    rw [List.foldl_cons, visit_eq, ih, List.filter_cons]
    by_cases hadm : isAdmitted d
    · simp [hadm]
    · simp [hadm]

theorem foldl_add_map_ident (m : Menu κ) (hm : m.entries = []) (es : List (Entry κ)) :
    (es.foldl Menu.add m).entries.map Entry.ident = es.map Entry.ident := by
  cases es with
  | nil => simp [hm]
  | cons e rest =>
    rw [foldl_add_of_nil m e rest hm]
    simp [Entry.ident, Entry.select]

/-- C10: when the directory opens, `change_dir` returns, and the entries of the menu are
then, up to their order, exactly the entries of the admitted items of the listing, one
per item: those that are not hidden (a name starting with `.` other than `..`) and are
either a subdirectory (`d_type == DT_DIR`) or a file whose name ends in `.nes`. In
particular every visible file whose name ends in `.nes` has its entry: the length test
drops none. -/
theorem change_dir_entries (opendir : Str → Option (List Dirent)) (m : Menu FileAction)
    (dir : Str) (listing : List Dirent) (hopen : opendir dir = some listing) :
    ∃ m1, FileMenu.change_dir opendir m dir = some m1 ∧
      (m1.entries.map Entry.ident).Perm
        ((listing.filter (fun d => decide (isAdmitted d))).map (fun d => (entryFor dir d).ident)) ∧
      (∀ d ∈ listing, d.d_type ≠ DT_DIR → hasImageEnding d.d_name → ¬ isHiddenName d.d_name →
        (d.d_name, FileAction.load_rom (dir ++ ['/'] ++ d.d_name)) ∈ m1.entries.map Entry.ident) := by
  have hperm : (((listing.foldl (FileMenu.visit dir) m.clear).sort_by_label).entries.map
      Entry.ident).Perm
        ((listing.filter (fun d => decide (isAdmitted d))).map (fun d => (entryFor dir d).ident)) := by
    refine (sort_by_label_entries _).1.trans ?_
    rw [foldl_visit_eq, foldl_add_map_ident _ rfl, List.map_map]
    rfl
  refine ⟨_, ?_, hperm, ?_⟩
  · unfold FileMenu.change_dir
    rw [hopen]
  · intro d hd hfile hend hvis
    rw [hperm.mem_iff, List.mem_map]
    refine ⟨d, ?_, ?_⟩
    · rw [List.mem_filter]
      exact ⟨hd, decide_eq_true ⟨hvis, Or.inr hend⟩⟩
    · unfold entryFor
      rw [if_neg hfile]
      rfl

/-- C10 at a concrete listing: of seven items, the two image files, the subdirectory and
the parent marker are let in; the hidden file, the text file and the hidden `.nes` are
not. -/
theorem change_dir_entries_witness :
    ∃ m1, FileMenu.change_dir (fun _ => some sampleListing) (Menu.fresh FileAction 5) ['r'] = some m1 ∧
      (m1.entries.map Entry.ident).Perm
        [(mkEntry "b.nes" (FileAction.load_rom "r/b.nes".toList)).ident,
         (mkEntry "a.nes" (FileAction.load_rom "r/a.nes".toList)).ident,
         (mkEntry "sub/" (FileAction.change_dir "r/sub".toList)).ident,
         (mkEntry "../" (FileAction.change_dir "r/..".toList)).ident] :=
  have h := change_dir_entries (fun _ => some sampleListing) (Menu.fresh FileAction 5) ['r']
    sampleListing rfl
  h.imp (fun _ hm => ⟨hm.1, hm.2.1⟩)

/-! ## The selection marks after `update` -/

theorem getElem?_of_modifyAt {α : Type} (f : α → α) (i : Nat) (l l1 : List α)
    (h : modifyAt f i l = some l1) (j : Nat) :
    l1[j]? = if i = j then l[j]?.map f else l[j]? := by
  unfold modifyAt at h
  split at h
  · exact absurd h (by simp)
  · rename_i a ha
    simp only [Option.some.injEq] at h
    subst h
    rw [List.getElem?_set]
    split_ifs with hij hlt
    · subst hij; rw [ha]; rfl
    · subst hij
      have := (List.getElem?_eq_some.mp ha).1
      exact absurd this hlt
    · rfl

/-- The entries after `update`, index by index: the entry at the new cursor has been
selected, the entry at the old cursor, when it is another one, unselected, and the others
are as before. -/
theorem update_getElem? (m m1 : Menu κ) (keys : KeyState) (cbs : List κ)
    (h : m.update keys = some (m1, cbs)) (j : Nat) :
    m1.entries[j]? = m.entries[j]?.map (fun e =>
      if toSizeT m1.cursor = j then e.select
      else if toSizeT m.cursor = j then e.unselect else e) := by
  have hc := (update_fst_eq m m1 keys cbs h).1
  unfold Menu.update at h
  simp only at h
  split at h
  · exact absurd h (by simp)
  · rename_i es1 h1
    split at h
    · exact absurd h (by simp)
    · rename_i es2 h2
      have he : m1.entries = es2 := by
        split_ifs at h
        · split at h
          · exact absurd h (by simp)
          · simp only [Option.some.injEq, Prod.mk.injEq] at h
            rw [← h.1]
        · simp only [Option.some.injEq, Prod.mk.injEq] at h
          rw [← h.1]
      rw [he, getElem?_of_modifyAt _ _ _ _ h2, getElem?_of_modifyAt _ _ _ _ h1,
        navigate_entries, hc]
      cases m.entries[j]? with
      | none => split_ifs <;> rfl
      | some e =>
        simp only [Option.map_some']
        split_ifs <;> simp [Entry.select, Entry.unselect]

theorem select_of_selected (e : Entry κ) (h : e.selected = true) : e.select = e := by
  cases e
  simp only [Entry.select] at h ⊢
  simp [h]

theorem unselect_of_unselected (e : Entry κ) (h : e.selected = false) : e.unselect = e := by
  cases e
  simp only [Entry.unselect] at h ⊢
  simp [h]

theorem update_of_nil (m : Menu κ) (keys : KeyState) (h : m.entries = []) :
    m.update keys = none := by
  unfold Menu.update
  simp only
  have : modifyAt Entry.unselect (toSizeT m.cursor) (m.navigate keys).entries = none := by
    rw [navigate_entries, h]
    rfl
  rw [this]

/-- When exactly the entry at index `p` is marked selected, the selected entries are the
one-element list of that entry. -/
theorem filter_selected_of_unique (l : List (Entry κ)) :
    ∀ p : Nat, p < l.length →
      (∀ (i : Nat) (e : Entry κ), l[i]? = some e → (e.selected = true ↔ i = p)) →
      ∃ x, l[p]? = some x ∧ l.filter (fun e => e.selected) = [x] := by
  induction l with
  | nil => intro p hp; simp at hp
  | cons a as ih =>
    intro p hp h
    cases p with
    | zero =>
      refine ⟨a, List.getElem?_cons_zero, ?_⟩
      have ha : a.selected = true := (h 0 a List.getElem?_cons_zero).mpr rfl
      have has : as.filter (fun e => e.selected) = [] := by
        rw [List.filter_eq_nil_iff]
        intro x hx
        obtain ⟨n, hn⟩ := List.mem_iff_getElem?.mp hx
        have := h (n + 1) x (by simpa using hn)
        simp at this
        simp [this]
      simp [List.filter_cons, ha, has]
    | succ q =>
      have ha : a.selected = false := by
        have := h 0 a List.getElem?_cons_zero
        simp at this
        simpa using this
      obtain ⟨x, hx, hf⟩ := ih q (by simpa using hp) (fun i e hi => by
        have := h (i + 1) e (by simpa using hi)
        simpa using this)
      exact ⟨x, by simpa using hx, by simp [List.filter_cons, ha, hf]⟩

/-- When the selected entries of a list are the one-element list `[x]`, exactly one index
carries a selected entry, and the entry there is `x`. -/
theorem unique_of_filter_selected (l : List (Entry κ)) (x : Entry κ) :
    l.filter (fun e => e.selected) = [x] →
      ∃ p : Nat, l[p]? = some x ∧
        ∀ (i : Nat) (e : Entry κ), l[i]? = some e → (e.selected = true ↔ i = p) := by
  induction l with
  | nil => intro h; simp at h
  | cons a as ih =>
    intro h
    by_cases ha : a.selected = true
    · rw [List.filter_cons, if_pos ha] at h
      simp only [List.cons.injEq] at h
      obtain ⟨rfl, has⟩ := h
      refine ⟨0, List.getElem?_cons_zero, ?_⟩
      intro i e hi
      cases i with
      | zero =>
        simp only [List.getElem?_cons_zero, Option.some.injEq] at hi
        subst hi; simp [ha]
      | succ n =>
        simp only [List.getElem?_cons_succ] at hi
        have := List.filter_eq_nil_iff.mp has e (List.getElem?_mem hi)
        simp [this]
    · rw [List.filter_cons, if_neg ha] at h
      obtain ⟨p, hp, hq⟩ := ih h
      refine ⟨p + 1, by simpa using hp, ?_⟩
      intro i e hi
      cases i with
      | zero =>
        simp only [List.getElem?_cons_zero, Option.some.injEq] at hi
        subst hi; simp [ha]
      | succ n =>
        simp only [List.getElem?_cons_succ] at hi
        simpa using hq n e hi

/-- C16: on a non-empty menu in which exactly the entry at the cursor is marked selected
(the cursor being an index of the list), `update` returns for every key snapshot, and in
the menu it leaves, before any callback runs, exactly the entry at the new cursor is
marked selected, whether or not the cursor has moved. -/
theorem update_keeps_single_selection (m : Menu κ) (keys : KeyState) (h0 : 0 ≤ m.cursor)
    (h1 : m.cursor < m.entries.length) (h2 : m.entries.length < SIZE_T_MOD)
    (hsel : ∀ (i : Nat) (e : Entry κ), m.entries[i]? = some e →
      (e.selected = true ↔ i = m.cursor.toNat)) :
    ∃ m1 cbs, m.update keys = some (m1, cbs) ∧
      0 ≤ m1.cursor ∧ m1.cursor < m1.entries.length ∧
      (∀ (i : Nat) (e : Entry κ), m1.entries[i]? = some e →
        (e.selected = true ↔ i = m1.cursor.toNat)) ∧
      (m1.entries.filter (fun e => e.selected)).length = 1 := by
  obtain ⟨es2, e, hid, -, hu⟩ := update_of_valid m keys h0 h1 h2
  obtain ⟨hn0, hn1⟩ := navigate_cursor_valid m keys h0 h1 h2
  have hlt : (m.entries.length : Int) < SIZE_T_MOD := by exact_mod_cast h2
  have hlen : es2.length = m.entries.length := by
    have := congrArg List.length hid
    simpa using this
  have hchar : ∀ (i : Nat) (e : Entry κ), es2[i]? = some e →
      (e.selected = true ↔ i = (m.navigate keys).cursor.toNat) := by
    intro i e1 hi
    have hg := update_getElem? m _ keys _ hu i
    dsimp only at hg
    rw [hi, toSizeT_of_nonneg _ hn0 (lt_trans hn1 hlt),
      toSizeT_of_nonneg _ h0 (lt_trans h1 hlt)] at hg
    cases hm : m.entries[i]? with
    | none => rw [hm] at hg; exact absurd hg (by simp)
    | some e0 =>
      rw [hm, Option.map_some', Option.some.injEq] at hg
      have hs := hsel i e0 hm
      subst hg
      split_ifs with ha hb
      · simp [Entry.select, ha]
      · simp only [Entry.unselect, Bool.false_eq_true, false_iff]
        exact fun h => ha h.symm
      · rw [hs]
        constructor
        · intro h; exact absurd h.symm hb
        · intro h; exact absurd h.symm ha
  refine ⟨_, _, hu, hn0, ?_, hchar, ?_⟩
  · dsimp only; rw [hlen]; exact hn1
  · dsimp only
    obtain ⟨x, -, hf⟩ := filter_selected_of_unique es2 (m.navigate keys).cursor.toNat
      (by rw [hlen]; omega) hchar
    rw [hf]
    rfl

/-- C16 at a concrete input: after `add(A)` and `add(B)` the entry `A` at cursor 0 is the
one selected; after "move down" it is the entry at the new cursor. -/
theorem update_keeps_single_selection_witness :
    ∃ m1 cbs, menuAB.update (pressed [SDL_SCANCODE_DOWN]) = some (m1, cbs) ∧
      0 ≤ m1.cursor ∧ m1.cursor < m1.entries.length ∧
      (∀ (i : Nat) (e : Entry Char), m1.entries[i]? = some e →
        (e.selected = true ↔ i = m1.cursor.toNat)) ∧
      (m1.entries.filter (fun e => e.selected)).length = 1 :=
  update_keeps_single_selection menuAB (pressed [SDL_SCANCODE_DOWN]) (by decide) (by decide)
    (by decide) (by
      intro i e hi
      match i, hi with
      | 0, hi => cases Option.some.inj hi; decide
      | 1, hi => cases Option.some.inj hi; decide
      | n + 2, hi => exact absurd hi (by simp [menuAB, Menu.add, Menu.fresh]))

/-- C18 as stated fails: after `add(b)`, `add(c)`, `add(a)`, one "move down" and
`sort_by_label`, the cursor is 1 and the entries marked selected are those at indices 0
and 2; an `update` with no key pressed leaves the cursor at 1 and marks the entry at
index 1 selected as well, so the entry list is not left unchanged. -/
theorem update_without_move_marks_cursor_entry :
    ∃ m : Menu Char,
      (Menu.fresh Char 5).run opsSortAwayFromCursor = some m ∧
      m.entries ≠ [] ∧ m.cursor = 1 ∧ selectedIndices m.entries = [0, 2] ∧
      pressed [] SDL_SCANCODE_RETURN = 0 ∧
      (m.update (pressed [])).map (fun r => (r.1.cursor, selectedIndices r.1.entries))
        = some (1, [0, 1, 2]) ∧
      (m.update (pressed [])).map (fun r => r.1.entries) ≠ some m.entries := by
  refine ⟨_, rfl, ?_, ?_, ?_, ?_, ?_, ?_⟩ <;> decide

/-- C18, amended: on a non-empty menu (the cursor an index of the list), for every key
snapshot without "confirm", `update` returns without invoking a callback; if the cursor
has moved the error entry is removed; if it has not, the error entry, present or absent,
is as before, and the list holds the same entries in the same order, the entry at the
cursor now marked selected and every other entry as before: the entry list is unchanged
if and only if the entry at the cursor was already marked selected. -/
theorem update_error_entry_frame (m : Menu κ) (keys : KeyState) (h0 : 0 ≤ m.cursor)
    (h1 : m.cursor < m.entries.length) (h2 : m.entries.length < SIZE_T_MOD)
    (hret : keys SDL_SCANCODE_RETURN = 0) :
    ∃ m1, m.update keys = some (m1, []) ∧
      (m1.cursor ≠ m.cursor → m1.errorMessage = none) ∧
      (m1.cursor = m.cursor →
        m1.errorMessage = m.errorMessage ∧
        m1.entries.map Entry.ident = m.entries.map Entry.ident ∧
        (∀ j : Nat, m1.entries[j]? =
          m.entries[j]?.map (fun e => if j = m.cursor.toNat then e.select else e)) ∧
        (m1.entries = m.entries ↔
          ∀ e, m.entries[m.cursor.toNat]? = some e → e.selected = true)) := by
  obtain ⟨es2, e, hid, -, hu⟩ := update_of_valid m keys h0 h1 h2
  rw [if_neg (by simp [hret])] at hu
  have hlt : (m.entries.length : Int) < SIZE_T_MOD := by exact_mod_cast h2
  refine ⟨_, hu, ?_, ?_⟩
  · dsimp only
    rw [navigate_of_valid m keys h0 h1 h2]
    split_ifs <;> intro h <;> first | rfl | exact absurd rfl h
  · dsimp only
    intro hc
    have hpt : ∀ j : Nat, es2[j]? =
        m.entries[j]?.map (fun e => if j = m.cursor.toNat then e.select else e) := by
      intro j
      have hg := update_getElem? m _ keys _ hu j
      dsimp only at hg
      rw [hc, toSizeT_of_nonneg _ h0 (lt_trans h1 hlt)] at hg
      rw [hg]
      cases m.entries[j]? with
      | none => rfl
      | some e0 =>
        rw [Option.map_some', Option.map_some']
        by_cases hj : m.cursor.toNat = j
        · rw [if_pos hj, if_pos hj.symm]
        · rw [if_neg hj, if_neg hj, if_neg (fun h => hj h.symm)]
    refine ⟨?_, hid, hpt, ?_⟩
    · rw [navigate_of_valid m keys h0 h1 h2] at hc ⊢
      split_ifs at hc ⊢ <;> first | rfl | (dsimp only at hc; omega)
    · constructor
      · intro heq e0 he0
        have := hpt m.cursor.toNat
        rw [heq, he0, Option.map_some', if_pos rfl, Option.some.injEq] at this
        have hs := congrArg Entry.selected this
        exact hs.trans rfl
      · intro hselc
        apply List.ext_getElem?
        intro j
        rw [hpt j]
        cases hm : m.entries[j]? with
        | none => rfl
        | some e0 =>
          rw [Option.map_some']
          split_ifs with hj
          · subst hj
            rw [select_of_selected e0 (hselc e0 hm)]
          · rfl

/-- C18, amended, at a concrete input where the cursor does not move: the menu reached by
`add(b)`, `add(c)`, `add(a)`, "move down" and `sort_by_label`, showing an error entry,
with no key pressed. The error entry stays, and the entry at the cursor, index 1, is
marked selected beside those at indices 0 and 2. -/
theorem update_error_entry_frame_witness :
    (({ menuBCA.sort_by_label with errorMessage := some (mkEntry "Load failed" 'E') } :
        Menu Char).update (pressed [])).map
          (fun r => (r.1.cursor, r.1.errorMessage, selectedIndices r.1.entries))
      = some (1, some (mkEntry "Load failed" 'E'), [0, 1, 2]) ∧
    ∃ m1, ({ menuBCA.sort_by_label with errorMessage := some (mkEntry "Load failed" 'E') } :
        Menu Char).update (pressed []) = some (m1, []) ∧
      (m1.cursor ≠ 1 → m1.errorMessage = none) ∧
      (m1.cursor = 1 →
        m1.errorMessage = some (mkEntry "Load failed" 'E') ∧
        m1.entries.map Entry.ident = menuBCA.sort_by_label.entries.map Entry.ident ∧
        (∀ j : Nat, m1.entries[j]? =
          menuBCA.sort_by_label.entries[j]?.map
            (fun e => if j = (1 : Int).toNat then e.select else e)) ∧
        (m1.entries = menuBCA.sort_by_label.entries ↔
          ∀ e, menuBCA.sort_by_label.entries[(1 : Int).toNat]? = some e →
            e.selected = true)) :=
  ⟨by decide,
    update_error_entry_frame
      ({ menuBCA.sort_by_label with errorMessage := some (mkEntry "Load failed" 'E') } :
        Menu Char)
      (pressed []) (by decide) (by decide) (by decide) (by decide)⟩

/-- On an empty list the unsigned `entries.size() - 1` wraps to the largest `size_t`. -/
theorem sizeMinusOne_zero : sizeMinusOne 0 = SIZE_T_MOD - 1 := by decide

theorem toSizeT_zero_lt : toSizeT 0 < sizeMinusOne 0 := by decide

/-- C20: for a menu whose cursor is an index of its non-empty list, or is 0 on an empty
list, the accesses `entries[...]` of `update` are in range and the cursor is an index of
the list afterwards, for every key snapshot, if and only if the list is not empty. On an
empty list `entries.size() - 1` is the largest `size_t`, the comparison
`cursor < entries.size() - 1` holds, and `update` has an out-of-range access whatever the
keys. -/
theorem update_in_range_iff_nonempty (m : Menu κ) (h2 : m.entries.length < SIZE_T_MOD)
    (hpre : (m.entries ≠ [] ∧ 0 ≤ m.cursor ∧ m.cursor < m.entries.length) ∨
      (m.entries = [] ∧ m.cursor = 0)) :
    ((∀ keys : KeyState, ∃ m1 cbs, m.update keys = some (m1, cbs) ∧
        0 ≤ m1.cursor ∧ m1.cursor < m1.entries.length) ↔ m.entries ≠ []) ∧
      (m.entries = [] →
        sizeMinusOne m.entries.length = SIZE_T_MOD - 1 ∧
        toSizeT m.cursor < sizeMinusOne m.entries.length ∧
        ∀ keys : KeyState, m.update keys = none) := by
  constructor
  · constructor
    · intro h hnil
      obtain ⟨m1, cbs, hu, -⟩ := h (fun _ => 0)
      rw [update_of_nil m _ hnil] at hu
      exact absurd hu (by simp)
    · intro hne keys
      rcases hpre with ⟨-, h0, h1⟩ | ⟨hnil, -⟩
      · obtain ⟨es2, e, hid, -, hu⟩ := update_of_valid m keys h0 h1 h2
        obtain ⟨hn0, hn1⟩ := navigate_cursor_valid m keys h0 h1 h2
        refine ⟨_, _, hu, hn0, ?_⟩
        have hlen : es2.length = m.entries.length := by
          have := congrArg List.length hid
          simpa using this
        dsimp only
        rw [hlen]
        exact hn1
      · exact absurd hnil hne
  · intro hnil
    rcases hpre with ⟨hne, -⟩ | ⟨-, hc⟩
    · exact absurd hnil hne
    · refine ⟨?_, ?_, fun keys => update_of_nil m keys hnil⟩
      · rw [hnil, List.length_nil]; exact sizeMinusOne_zero
      · rw [hnil, hc, List.length_nil]; exact toSizeT_zero_lt

/-- C20 at a concrete input: the fresh, empty menu. -/
theorem update_in_range_iff_nonempty_witness :
    ((∀ keys : KeyState, ∃ m1 cbs, (Menu.fresh Char 5).update keys = some (m1, cbs) ∧
        0 ≤ m1.cursor ∧ m1.cursor < m1.entries.length) ↔ (Menu.fresh Char 5).entries ≠ []) ∧
      ((Menu.fresh Char 5).entries = [] →
        sizeMinusOne (Menu.fresh Char 5).entries.length = SIZE_T_MOD - 1 ∧
        toSizeT (Menu.fresh Char 5).cursor < sizeMinusOne (Menu.fresh Char 5).entries.length ∧
        ∀ keys : KeyState, (Menu.fresh Char 5).update keys = none) :=
  update_in_range_iff_nonempty (Menu.fresh Char 5) (by decide) (Or.inr ⟨rfl, rfl⟩)

/-! ## `load_rom` -/

/-- C12: for every state and every path after whose load `Cartridge::loaded()` is false,
`load_rom` leaves an error entry that is present, labelled "Load failed" and selected; the
run/pause flag is as before and `toggle_pause` has not been called; the entry list and
the cursor are as before. -/
theorem load_rom_failure {σ : Type} (C : Cartridge σ) (s : FileMenuState σ) (path : Str)
    (hfail : C.loaded (C.load path s.cart) = false) :
    (∃ e, (FileMenu.load_rom C s path).menu.errorMessage = some e ∧
        e.label = "Load failed".toList ∧ e.selected = true) ∧
      (FileMenu.load_rom C s path).pause = s.pause ∧
      (FileMenu.load_rom C s path).toggles = s.toggles ∧
      (FileMenu.load_rom C s path).menu.entries = s.menu.entries ∧
      (FileMenu.load_rom C s path).menu.cursor = s.menu.cursor := by
  unfold FileMenu.load_rom
  dsimp only
  rw [if_pos hfail]
  exact ⟨⟨_, rfl, rfl, rfl⟩, rfl, rfl, rfl, rfl⟩

/-- C12 at a concrete input: a path that the sample loader rejects, on a paused menu of
two entries. -/
theorem load_rom_failure_witness :
    (∃ e, (FileMenu.load_rom sampleCartridge sampleFileState "bad.nes".toList).menu.errorMessage
          = some e ∧ e.label = "Load failed".toList ∧ e.selected = true) ∧
      (FileMenu.load_rom sampleCartridge sampleFileState "bad.nes".toList).pause = true ∧
      (FileMenu.load_rom sampleCartridge sampleFileState "bad.nes".toList).toggles = 0 ∧
      (FileMenu.load_rom sampleCartridge sampleFileState "bad.nes".toList).menu.entries
        = sampleFileState.menu.entries ∧
      (FileMenu.load_rom sampleCartridge sampleFileState "bad.nes".toList).menu.cursor = 1 :=
  load_rom_failure sampleCartridge sampleFileState "bad.nes".toList (by decide)

/-- C13: for every state, with or without an error entry, and every path after whose
load `Cartridge::loaded()` is true, `load_rom` leaves no error entry and calls
`toggle_pause` exactly once: the run/pause flag is flipped. -/
theorem load_rom_success {σ : Type} (C : Cartridge σ) (s : FileMenuState σ) (path : Str)
    (hok : C.loaded (C.load path s.cart) = true) :
    (FileMenu.load_rom C s path).menu.errorMessage = none ∧
      (FileMenu.load_rom C s path).toggles = s.toggles + 1 ∧
      (FileMenu.load_rom C s path).pause = !s.pause := by
  unfold FileMenu.load_rom
  dsimp only
  rw [if_neg (by rw [hok]; exact Bool.noConfusion)]
  exact ⟨rfl, rfl, rfl⟩

/-- C13 at a concrete input: the path that the sample loader accepts, on a paused menu
that shows an error entry. -/
theorem load_rom_success_witness :
    (FileMenu.load_rom sampleCartridge sampleFileState "ok.nes".toList).menu.errorMessage = none ∧
      (FileMenu.load_rom sampleCartridge sampleFileState "ok.nes".toList).toggles = 0 + 1 ∧
      (FileMenu.load_rom sampleCartridge sampleFileState "ok.nes".toList).pause = !true :=
  load_rom_success sampleCartridge sampleFileState "ok.nes".toList (by decide)

/-! ## `change_dir` on a directory that does not open -/

theorem change_dir_of_not_open (opendir : Str → Option (List Dirent)) (m : Menu FileAction)
    (dir : Str) (h : opendir dir = none) : FileMenu.change_dir opendir m dir = none := by
  unfold FileMenu.change_dir
  rw [h]

/-- C14 (the defect, evaluated): when `opendir` returns no handle for the path,
`change_dir` goes on to `readdir` on the null handle, which is undefined: there is no
resulting menu state, and no error entry is set. -/
theorem change_dir_unopened_is_undefined :
    FileMenu.change_dir (fun _ => none) (Menu.fresh FileAction 5) "missing".toList = none := by
  rfl

/-! ## ControlEntry -/

theorem trigger_label_slot (names : Int → Str) (ce : ControlEntry) (k : Int) :
    (ce.trigger names k).slot = k ∧ (ce.trigger names k).binding = ce.binding ∧
      (ce.trigger names k).keyEntry.label = humanReadable names ce.binding k :=
  ⟨rfl, rfl, rfl⟩

theorem foldl_trigger_inv (names : Int → Str) (ks : List Int) :
    ∀ ce : ControlEntry, ce.keyEntry.label = humanReadable names ce.binding ce.slot →
      (ks.foldl (ControlEntry.trigger names) ce).binding = ce.binding ∧
      (ks.foldl (ControlEntry.trigger names) ce).keyEntry.label =
        humanReadable names ce.binding (ks.foldl (ControlEntry.trigger names) ce).slot := by
  induction ks with
  | nil => intro ce h; exact ⟨rfl, h⟩
  | cons k ks ih =>
    intro ce _
    rw [List.foldl_cons]
    obtain ⟨hb, hl⟩ := ih (ce.trigger names k) rfl
    exact ⟨hb, hl⟩

/-- C15: for a key or button `ControlEntry` and every value `k` that the input source
returns next, `trigger` writes `k` into the binding slot and sets the label of the child
entry to the text of `k` (the scancode name for a key, the decimal string for a button);
after construction, and after any sequence of triggers, the label of the child entry is
the text of the value in the slot. -/
theorem control_entry_label_tracks_slot (names : Int → Str) (action : Str) (binding : Binding)
    (v0 : Int) (ks : List Int) (k : Int) :
    (ControlEntry.new names action binding v0).keyEntry.label
        = humanReadable names binding (ControlEntry.new names action binding v0).slot ∧
      (ks.foldl (ControlEntry.trigger names) (ControlEntry.new names action binding v0)).keyEntry.label
        = humanReadable names binding
            (ks.foldl (ControlEntry.trigger names) (ControlEntry.new names action binding v0)).slot ∧
      ((ks.foldl (ControlEntry.trigger names)
          (ControlEntry.new names action binding v0)).trigger names k).slot = k ∧
      ((ks.foldl (ControlEntry.trigger names)
          (ControlEntry.new names action binding v0)).trigger names k).keyEntry.label
        = humanReadable names binding k ∧
      humanReadable names Binding.key k = names k ∧
      humanReadable names Binding.button k = to_string k := by
  have h := foldl_trigger_inv names ks (ControlEntry.new names action binding v0) rfl
  refine ⟨rfl, h.2, rfl, ?_, rfl, rfl⟩
  rw [(trigger_label_slot names _ k).2.2, h.1]
  rfl

/-- The fourth scenario of the specification: a key entry is triggered and the input
source reports the key `X` (scancode 27); the slot receives 27 and the child entry reads
`X`. A button entry that receives 12 reads `12`. -/
theorem control_entry_scenario :
    ((ControlEntry.new sampleScancodeName "Up".toList Binding.key 82).trigger
        sampleScancodeName 27).slot = 27 ∧
      ((ControlEntry.new sampleScancodeName "Up".toList Binding.key 82).trigger
        sampleScancodeName 27).keyEntry.label = ['X'] ∧
      ((ControlEntry.new sampleScancodeName "A".toList Binding.button 0).trigger
        sampleScancodeName 12).keyEntry.label = ['1', '2'] := by
  refine ⟨?_, ?_, ?_⟩ <;> decide

/-! ## The menu after `change_dir` -/

theorem entryFor_selected (dir : Str) (d : Dirent) : (entryFor dir d).selected = false := by
  unfold entryFor
  split_ifs <;> rfl

theorem change_dir_of_open (opendir : Str → Option (List Dirent)) (m : Menu FileAction)
    (dir : Str) (listing : List Dirent) (hopen : opendir dir = some listing) :
    FileMenu.change_dir opendir m dir =
      some ((((listing.filter (fun d => decide (isAdmitted d))).map (entryFor dir)).foldl
        Menu.add m.clear).sort_by_label) := by
  unfold FileMenu.change_dir
  rw [hopen]
  dsimp only
  rw [foldl_visit_eq]

/-- Sorting right after a run of `add`s of unselected entries into an empty list: the
entries are the sorted added entries, the first of them selected. -/
theorem sort_by_label_after_adds (m : Menu κ) (hm : m.entries = []) (es : List (Entry κ))
    (hun : ∀ x ∈ es, x.selected = false) :
    ((es.foldl Menu.add m).sort_by_label).entries
        = (stdSort labelLess es).modifyHead Entry.select ∧
      ((es.foldl Menu.add m).sort_by_label).cursor = m.cursor := by
  cases es with
  | nil =>
    simp only [List.foldl_nil]
    unfold Menu.sort_by_label
    rw [if_pos (by simp [hm]), hm]
    exact ⟨rfl, rfl⟩
  | cons e rest =>
    rw [foldl_add_of_nil m e rest hm]
    unfold Menu.sort_by_label
    rw [if_neg (by simp)]
    have he : e.select.unselect = e := by
      have := hun e (List.mem_cons_self _ _)
      cases e
      simp only [Entry.select, Entry.unselect] at this ⊢
      simp [this]
    refine ⟨?_, rfl⟩
    dsimp only
    rw [List.modifyHead_cons, he]

theorem stdSort_unselected (es : List (Entry κ)) (hun : ∀ x ∈ es, x.selected = false) :
    ∀ x ∈ stdSort labelLess es, x.selected = false :=
  fun x hx => hun x ((stdSort_perm labelLess es).mem_iff.mp hx)

/-- Selecting the head of a list of unselected entries marks exactly index 0. -/
theorem modifyHead_select_unique (l : List (Entry κ)) (hun : ∀ x ∈ l, x.selected = false)
    (i : Nat) (e : Entry κ) (h : (l.modifyHead Entry.select)[i]? = some e) :
    e.selected = true ↔ i = 0 := by
  rw [List.getElem?_modifyHead] at h
  split_ifs at h with hi
  · subst hi
    cases h0 : l[0]? with
    | none => rw [h0] at h; exact absurd h (by simp)
    | some a =>
      rw [h0, Option.map_some', Option.some.injEq] at h
      subst h
      simp [Entry.select]
  · have := hun e (List.getElem?_mem h)
    simp [this, hi]

/-- C19: for every listing that admits at least one item, in whatever order it is
returned, `change_dir` leaves the cursor at 0 and a non-empty list in which exactly one
entry is marked selected, the one at index 0. -/
theorem change_dir_selects_first (opendir : Str → Option (List Dirent)) (m : Menu FileAction)
    (dir : Str) (listing : List Dirent) (hopen : opendir dir = some listing)
    (hadm : ∃ d ∈ listing, isAdmitted d) :
    ∃ m1, FileMenu.change_dir opendir m dir = some m1 ∧ m1.cursor = 0 ∧ m1.entries ≠ [] ∧
      (∀ (i : Nat) (e : Entry FileAction), m1.entries[i]? = some e →
        (e.selected = true ↔ i = 0)) ∧
      (m1.entries.filter (fun e => e.selected)).length = 1 := by
  have hun : ∀ x ∈ (listing.filter (fun d => decide (isAdmitted d))).map (entryFor dir),
      x.selected = false := by
    intro x hx
    obtain ⟨d, -, rfl⟩ := List.mem_map.mp hx
    exact entryFor_selected dir d
  obtain ⟨hent, hcur⟩ := sort_by_label_after_adds m.clear rfl _ hun
  have hpos : 0 < ((stdSort labelLess
      ((listing.filter (fun d => decide (isAdmitted d))).map (entryFor dir))).modifyHead
        Entry.select).length := by
    rw [List.length_modifyHead, (stdSort_perm labelLess _).length_eq, List.length_map]
    obtain ⟨d, hd, hda⟩ := hadm
    exact List.length_pos_of_mem (List.mem_filter.mpr ⟨hd, decide_eq_true hda⟩)
  have hchar : ∀ (i : Nat) (e : Entry FileAction),
      ((stdSort labelLess
        ((listing.filter (fun d => decide (isAdmitted d))).map (entryFor dir))).modifyHead
          Entry.select)[i]? = some e → (e.selected = true ↔ i = 0) :=
    fun i e h => modifyHead_select_unique _ (stdSort_unselected _ hun) i e h
  refine ⟨_, change_dir_of_open opendir m dir listing hopen, hcur, ?_, ?_, ?_⟩
  · rw [hent]
    exact List.length_pos.mp hpos
  · rw [hent]; exact hchar
  · rw [hent]
    obtain ⟨x, -, hf⟩ := filter_selected_of_unique _ 0 hpos hchar
    rw [hf]
    rfl

/-- C19 at a concrete listing, returned with the image files first. -/
theorem change_dir_selects_first_witness :
    ∃ m1, FileMenu.change_dir (fun _ => some sampleListing) (Menu.fresh FileAction 5) ['r']
        = some m1 ∧ m1.cursor = 0 ∧ m1.entries ≠ [] ∧
      (∀ (i : Nat) (e : Entry FileAction), m1.entries[i]? = some e →
        (e.selected = true ↔ i = 0)) ∧
      (m1.entries.filter (fun e => e.selected)).length = 1 :=
  change_dir_selects_first (fun _ => some sampleListing) (Menu.fresh FileAction 5) ['r']
    sampleListing rfl ⟨mkDirent "b.nes" 8, by decide, by decide⟩

/-! ## The visible rows -/

theorem toSizeT_succ (i : Int) (h : toSizeT i + 1 < SIZE_T_MOD) :
    toSizeT (i + 1) = toSizeT i + 1 := by
  unfold toSizeT SIZE_T_MOD at *
  have hm : ((2 ^ 64 : Nat) : Int) = 18446744073709551616 := by norm_num
  rw [hm] at *
  omega

/-- The rows drawn from index `i` on are entries of the list from position `i` on, in
the order of the list. -/
theorem renderRows_sublist (m : Menu κ) (h2 : m.entries.length < SIZE_T_MOD) :
    ∀ (fuel : Nat) (i : Int),
      List.Sublist (m.renderRows fuel i) (m.entries.drop (toSizeT i)) := by
  intro fuel
  induction fuel with
  | zero => intro i; exact List.nil_sublist _
  | succ n ih =>
    intro i
    unfold Menu.renderRows
    split_ifs with hc
    · rw [List.getElem?_eq_getElem hc.1]
      dsimp only
      rw [List.drop_eq_getElem_cons hc.1, ← toSizeT_succ i (by omega)]
      exact List.Sublist.cons₂ _ (ih (i + 1))
    · exact List.nil_sublist _

/-- The loop of `render` ends within `entries.size()` rounds: more fuel draws the same
rows. -/
theorem renderRows_fuel (m : Menu κ) (h2 : m.entries.length < SIZE_T_MOD) :
    ∀ (fuel : Nat) (i : Int), m.entries.length - toSizeT i ≤ fuel →
      ∀ extra : Nat, m.renderRows (fuel + extra) i = m.renderRows fuel i := by
  intro fuel
  induction fuel with
  | zero =>
    intro i hi extra
    cases extra with
    | zero => rfl
    | succ k =>
      rw [Nat.zero_add]
      unfold Menu.renderRows
      rw [if_neg (by omega)]
  | succ n ih =>
    intro i hi extra
    rw [Nat.add_right_comm]
    unfold Menu.renderRows
    split_ifs with hc
    · rw [List.getElem?_eq_getElem hc.1]
      dsimp only
      rw [ih (i + 1) (by rw [toSizeT_succ i (by omega)]; omega) extra]
    · rfl

theorem visible_sublist (m : Menu κ) (h2 : m.entries.length < SIZE_T_MOD) :
    List.Sublist m.visible m.entries :=
  (renderRows_sublist m h2 _ _).trans (List.drop_sublist _ _)

theorem visible_fuel (m : Menu κ) (h2 : m.entries.length < SIZE_T_MOD) (extra : Nat) :
    m.renderRows (m.entries.length + extra) m.top = m.visible :=
  renderRows_fuel m h2 _ _ (Nat.sub_le _ _) extra

/-! ## The order of the entries after `change_dir` -/

theorem map_label_modifyHead_select (l : List (Entry κ)) :
    (l.modifyHead Entry.select).map Entry.label = l.map Entry.label := by
  cases l <;> simp [List.modifyHead, Entry.select]

/-- C11 as stated fails at its own witness: for the directory of the scenario (image
files `b.nes` and `a.nes`, subdirectory `sub`, hidden `.hidden`, parent marker `..`) the
rows drawn after `change_dir` are labelled `../`, `a.nes`, `b.nes`, `sub/`: the parent
marker is a subdirectory and is labelled `../`, not `..`. -/
theorem change_dir_scenario_labels_parent_with_slash :
    (FileMenu.change_dir (fun _ => some scenarioListing) (Menu.fresh FileAction 5) ['r']).map
        (fun m1 => m1.visible.map Entry.label)
      = some ["../".toList, "a.nes".toList, "b.nes".toList, "sub/".toList] ∧
    (FileMenu.change_dir (fun _ => some scenarioListing) (Menu.fresh FileAction 5) ['r']).map
        (fun m1 => m1.visible.map Entry.label)
      ≠ some ["..".toList, "a.nes".toList, "b.nes".toList, "sub/".toList] := by
  constructor <;> decide

/-- C11, amended: when the directory opens, after `change_dir` the labels of the menu are
those of the admitted items, `name + "/"` for a subdirectory (the parent marker `..`
included, which gives `../`) and the name for an image file; the entries are in
non-decreasing label order, and so are the rows that `render` draws, which are entries of
the list in the order of the list. -/
theorem change_dir_visible_sorted (opendir : Str → Option (List Dirent)) (m : Menu FileAction)
    (dir : Str) (listing : List Dirent) (hopen : opendir dir = some listing)
    (hlen : listing.length < SIZE_T_MOD) :
    ∃ m1, FileMenu.change_dir opendir m dir = some m1 ∧
      (m1.entries.map Entry.label).Perm
        ((listing.filter (fun d => decide (isAdmitted d))).map
          (fun d => if d.d_type = DT_DIR then d.d_name ++ ['/'] else d.d_name)) ∧
      (m1.entries.map Entry.label).Pairwise
        (fun a b => ¬ List.Lex (fun x y : Char => x.toNat < y.toNat) b a) ∧
      List.Sublist m1.visible m1.entries ∧
      (m1.visible.map Entry.label).Pairwise
        (fun a b => ¬ List.Lex (fun x y : Char => x.toNat < y.toNat) b a) := by
  have hun : ∀ x ∈ (listing.filter (fun d => decide (isAdmitted d))).map (entryFor dir),
      x.selected = false := by
    intro x hx
    obtain ⟨d, -, rfl⟩ := List.mem_map.mp hx
    exact entryFor_selected dir d
  obtain ⟨hent, -⟩ := sort_by_label_after_adds m.clear rfl _ hun
  have hsorted : ((((listing.filter (fun d => decide (isAdmitted d))).map (entryFor dir)).foldl
      Menu.add m.clear).sort_by_label.entries.map Entry.label).Pairwise
        (fun a b => ¬ List.Lex (fun x y : Char => x.toNat < y.toNat) b a) := by
    refine (sort_by_label_entries _).2.imp ?_
    intro a b h hlex
    rw [← strLess_iff_lex, h] at hlex
    exact Bool.false_ne_true hlex
  have hbound : (((listing.filter (fun d => decide (isAdmitted d))).map (entryFor dir)).foldl
      Menu.add m.clear).sort_by_label.entries.length < SIZE_T_MOD := by
    rw [hent, List.length_modifyHead, (stdSort_perm labelLess _).length_eq, List.length_map]
    exact lt_of_le_of_lt (List.length_filter_le _ _) hlen
  have hsub := visible_sublist _ hbound
  refine ⟨_, change_dir_of_open opendir m dir listing hopen, ?_, hsorted, hsub, ?_⟩
  · rw [hent, map_label_modifyHead_select]
    refine ((stdSort_perm labelLess _).map Entry.label).trans ?_
    rw [List.map_map]
    apply List.Perm.of_eq
    apply List.map_congr_left
    intro d _
    simp only [Function.comp, entryFor]
    split_ifs <;> rfl
  · exact hsorted.sublist (hsub.map Entry.label)

/-- C11, amended, at the directory of the scenario: the rows drawn are labelled `../`,
`a.nes`, `b.nes`, `sub/`, in this order. -/
theorem change_dir_visible_sorted_witness :
    (FileMenu.change_dir (fun _ => some scenarioListing) (Menu.fresh FileAction 5) ['r']).map
        (fun m1 => m1.visible.map Entry.label)
      = some ["../".toList, "a.nes".toList, "b.nes".toList, "sub/".toList] ∧
    ∃ m1, FileMenu.change_dir (fun _ => some scenarioListing) (Menu.fresh FileAction 5) ['r']
        = some m1 ∧
      (m1.entries.map Entry.label).Perm
        ["b.nes".toList, "a.nes".toList, "sub/".toList, "../".toList] ∧
      (m1.entries.map Entry.label).Pairwise
        (fun a b => ¬ List.Lex (fun x y : Char => x.toNat < y.toNat) b a) ∧
      List.Sublist m1.visible m1.entries ∧
      (m1.visible.map Entry.label).Pairwise
        (fun a b => ¬ List.Lex (fun x y : Char => x.toNat < y.toNat) b a) :=
  ⟨by decide,
    change_dir_visible_sorted (fun _ => some scenarioListing) (Menu.fresh FileAction 5) ['r']
      scenarioListing rfl (by decide)⟩

/-! ## `sort_by_label` with the cursor away from index 0 -/

theorem sort_by_label_of_ne_nil (m : Menu κ) (h : m.entries ≠ []) :
    m.sort_by_label =
      { m with entries :=
          (stdSort labelLess (m.entries.modifyHead Entry.unselect)).modifyHead Entry.select } := by
  unfold Menu.sort_by_label
  rw [if_neg (by simpa using h)]

/-- C17 as stated fails in its last part: in the menu of entries `b`, `c`, `a` with the
cursor on index 1, whose entry `c` is the only one selected (the state after `add(b)`,
`add(c)`, `add(a)` and one "move down"), `sort_by_label` leaves `a`
(index 0) and `c` (index 2) selected; the next update, with "move down", moves the cursor
from 1 to 2, and two entries, at indices 0 and 2, are still marked selected. -/
theorem double_selection_survives_navigation :
    (Menu.fresh Char 5).run
        [MenuOp.add (mkEntry "b" 'b'), MenuOp.add (mkEntry "c" 'c'), MenuOp.add (mkEntry "a" 'a'),
         MenuOp.update (pressed [SDL_SCANCODE_DOWN])] = some menuBCA ∧
      selectedIndices menuBCA.entries = [1] ∧ menuBCA.cursor = 1 ∧
      selectedIndices menuBCA.sort_by_label.entries = [0, 2] ∧
      (menuBCA.sort_by_label.update (pressed [SDL_SCANCODE_DOWN])).map
          (fun r => (r.1.cursor, selectedIndices r.1.entries, r.1.entries.map Entry.label))
        = some (2, [0, 2], [['a'], ['b'], ['c']]) := by
  refine ⟨?_, ?_, ?_, ?_, ?_⟩ <;> decide

/-- C17, amended: on a menu whose single selected entry is the one at the cursor, the
cursor being an index other than 0, `sort_by_label` does not unselect that entry: after
the call it sits at some index `p`, still selected, and the entries marked selected are
those at index 0 and at index `p`, two entries when `p` is not 0. The next navigation
need not end the double selection: the next `update`, for whatever keys, unselects only
the entry at the old cursor index and selects the entry at the new cursor, so that the
entries marked selected are then the one at the new cursor and those of index 0 and `p`
that are not the old cursor index; the entry at index 0 stays selected, and exactly one
entry is selected after that update if and only if the new cursor is 0 and `p` is 0 or
the old cursor index. -/
theorem sort_by_label_keeps_old_selection (m : Menu κ) (keys : KeyState) (h0 : 0 < m.cursor)
    (h1 : m.cursor < m.entries.length) (h2 : m.entries.length < SIZE_T_MOD)
    (hsel : ∀ (i : Nat) (e : Entry κ), m.entries[i]? = some e →
      (e.selected = true ↔ i = m.cursor.toNat)) :
    ∃ (x : Entry κ) (p : Nat),
      m.entries[m.cursor.toNat]? = some x ∧ x.selected = true ∧
      m.sort_by_label.entries[p]? = some x ∧
      (∀ (i : Nat) (e : Entry κ), m.sort_by_label.entries[i]? = some e →
        (e.selected = true ↔ i = 0 ∨ i = p)) ∧
      (p ≠ 0 → (m.sort_by_label.entries.filter (fun e => e.selected)).length = 2) ∧
      ∃ m2 cbs, m.sort_by_label.update keys = some (m2, cbs) ∧
        (∀ (i : Nat) (e : Entry κ), m2.entries[i]? = some e →
          (e.selected = true ↔
            i = m2.cursor.toNat ∨ (i ≠ m.cursor.toNat ∧ (i = 0 ∨ i = p)))) ∧
        (∃ e0, m2.entries[0]? = some e0 ∧ e0.selected = true) ∧
        ((m2.entries.filter (fun e => e.selected)).length = 1 ↔
          (m2.cursor = 0 ∧ (p = 0 ∨ p = m.cursor.toNat))) := by
  have hne : m.entries ≠ [] := by
    intro h; rw [h] at h1; simp at h1; omega
  obtain ⟨x, hx, hfilt⟩ := filter_selected_of_unique m.entries m.cursor.toNat (by omega) hsel
  have hxs : x.selected = true := (hsel _ x hx).mpr rfl
  -- the head of the list is not selected, so unselecting it changes nothing
  have hhead : m.entries.modifyHead Entry.unselect = m.entries := by
    cases hm : m.entries with
    | nil => rfl
    | cons a as =>
      have ha : a.selected = false := by
        have := hsel 0 a (by rw [hm]; exact List.getElem?_cons_zero)
        have hc : ¬ (0 = m.cursor.toNat) := by omega
        simpa [hc] using this
      rw [List.modifyHead_cons, unselect_of_unselected a ha]
  have hsort := sort_by_label_of_ne_nil m hne
  rw [hhead] at hsort
  have hS : (stdSort labelLess m.entries).filter (fun e => e.selected) = [x] := by
    have := (stdSort_perm labelLess m.entries).filter (fun e => e.selected)
    rw [hfilt] at this
    exact List.perm_singleton.mp this
  obtain ⟨p, hp, hq⟩ := unique_of_filter_selected _ x hS
  have hT : ∀ (i : Nat) (e : Entry κ), m.sort_by_label.entries[i]? = some e →
      (e.selected = true ↔ i = 0 ∨ i = p) := by
    intro i e hi
    rw [hsort] at hi
    dsimp only at hi
    rw [List.getElem?_modifyHead] at hi
    split_ifs at hi with hi0
    · cases hs0 : (stdSort labelLess m.entries)[i]? with
      | none => rw [hs0] at hi; exact absurd hi (by simp)
      | some a =>
        rw [hs0, Option.map_some', Option.some.injEq] at hi
        subst hi
        simp [Entry.select, hi0]
    · rw [hq i e hi]
      constructor
      · intro h; exact Or.inr h
      · intro h; rcases h with h | h
        · exact absurd h hi0
        · exact h
  have hTp : m.sort_by_label.entries[p]? = some x := by
    rw [hsort]
    dsimp only
    rw [List.getElem?_modifyHead]
    split_ifs with hp0
    · rw [hp, Option.map_some', select_of_selected x hxs]
    · exact hp
  have hlenT : m.sort_by_label.entries.length = m.entries.length := by
    rw [hsort]
    dsimp only
    rw [List.length_modifyHead, (stdSort_perm labelLess _).length_eq]
  have hcur : m.sort_by_label.cursor = m.cursor := by rw [hsort]
  have hlt : (m.entries.length : Int) < SIZE_T_MOD := by exact_mod_cast h2
  refine ⟨x, p, hx, hxs, hTp, hT, ?_, ?_⟩
  · intro hp0
    rw [hsort]
    dsimp only
    cases hs : stdSort labelLess m.entries with
    | nil => rw [hs] at hp; exact absurd hp (by simp)
    | cons a as =>
      have ha : a.selected = false := by
        have := hq 0 a (by rw [hs]; exact List.getElem?_cons_zero)
        have hc : ¬ (0 = p) := fun h => hp0 h.symm
        simpa [hc] using this
      rw [hs, List.filter_cons, if_neg (by simp [ha])] at hS
      rw [List.modifyHead_cons, List.filter_cons, if_pos (by simp [Entry.select]), hS]
      rfl
  · have v0 : 0 ≤ m.sort_by_label.cursor := by rw [hcur]; omega
    have v1 : m.sort_by_label.cursor < m.sort_by_label.entries.length := by
      rw [hcur, hlenT]; exact h1
    have v2 : m.sort_by_label.entries.length < SIZE_T_MOD := by rw [hlenT]; exact h2
    obtain ⟨es2, e, hid, -, hu⟩ := update_of_valid m.sort_by_label keys v0 v1 v2
    obtain ⟨hn0, hn1⟩ := navigate_cursor_valid m.sort_by_label keys v0 v1 v2
    rw [hlenT] at hn1
    have hchar : ∀ (i : Nat) (e : Entry κ), es2[i]? = some e →
        (e.selected = true ↔
          i = (m.sort_by_label.navigate keys).cursor.toNat ∨
            (i ≠ m.cursor.toNat ∧ (i = 0 ∨ i = p))) := by
      intro i e1 hi
      have hg := update_getElem? m.sort_by_label _ keys _ hu i
      dsimp only at hg
      rw [hi, toSizeT_of_nonneg _ hn0 (lt_trans hn1 hlt), hcur,
        toSizeT_of_nonneg _ (le_of_lt h0) (lt_trans h1 hlt)] at hg
      cases hm : m.sort_by_label.entries[i]? with
      | none => rw [hm] at hg; exact absurd hg (by simp)
      | some e0 =>
        rw [hm, Option.map_some', Option.some.injEq] at hg
        have hs := hT i e0 hm
        subst hg
        split_ifs with ha hb
        · simp [Entry.select, ha]
        · simp only [Entry.unselect, Bool.false_eq_true, false_iff]
          rintro (h | ⟨h, -⟩)
          · exact ha h.symm
          · exact h hb.symm
        · rw [hs]
          constructor
          · intro h; exact Or.inr ⟨fun h' => hb h'.symm, h⟩
          · rintro (h | ⟨-, h⟩)
            · exact absurd h.symm ha
            · exact h
    have hlen2 : es2.length = m.entries.length := by
      have := congrArg List.length hid
      rw [List.length_map, List.length_map, hlenT] at this
      exact this
    have hpos : 0 < es2.length := by rw [hlen2]; omega
    have hsel0 : (es2.get ⟨0, hpos⟩).selected = true :=
      (hchar 0 _ (List.getElem?_eq_getElem hpos)).mpr (Or.inr ⟨by omega, Or.inl rfl⟩)
    have hplt : p < es2.length := by
      rw [hlen2, ← hlenT]
      exact (List.getElem?_eq_some.mp hTp).1
    have hclt : (m.sort_by_label.navigate keys).cursor.toNat < es2.length := by
      rw [hlen2]; omega
    refine ⟨_, _, hu, hchar, ⟨es2.get ⟨0, hpos⟩, List.getElem?_eq_getElem hpos, hsel0⟩, ?_⟩
    dsimp only
    constructor
    · intro hone
      obtain ⟨y, hy⟩ := List.length_eq_one.mp hone
      obtain ⟨q, -, hq2⟩ := unique_of_filter_selected es2 y hy
      have hq0 : 0 = q := (hq2 0 _ (List.getElem?_eq_getElem hpos)).mp hsel0
      have hqc : (m.sort_by_label.navigate keys).cursor.toNat = q :=
        (hq2 _ _ (List.getElem?_eq_getElem hclt)).mp
          ((hchar _ _ (List.getElem?_eq_getElem hclt)).mpr (Or.inl rfl))
      refine ⟨by omega, ?_⟩
      by_cases hpc : p = m.cursor.toNat
      · exact Or.inr hpc
      · left
        have hqp : p = q :=
          (hq2 _ _ (List.getElem?_eq_getElem hplt)).mp
            ((hchar _ _ (List.getElem?_eq_getElem hplt)).mpr (Or.inr ⟨hpc, Or.inr rfl⟩))
        omega
    · rintro ⟨hc0, hp0⟩
      have hzero : ∀ (i : Nat) (e : Entry κ), es2[i]? = some e →
          (e.selected = true ↔ i = 0) := by
        intro i e1 hi
        rw [hchar i e1 hi, hc0]
        constructor
        · rintro (h | ⟨hne1, h | h⟩)
          · simpa using h
          · exact h
          · rcases hp0 with hp0 | hp0
            · rw [h, hp0]
            · exact absurd (h.trans hp0) hne1
        · intro h
          exact Or.inl (by simpa using h)
      obtain ⟨y, -, hf⟩ := filter_selected_of_unique es2 0 hpos hzero
      rw [hf]
      rfl

/-- C17, amended, at a concrete input where the double selection does end: the menu of
entries `c`, `b`, `a` with the cursor on `b` (index 1). After `sort_by_label` the
entries `a` (index 0) and `b` (index 1) are marked selected; "move up" then takes the
cursor to 0 and unselects index 1, leaving the single mark at index 0. -/
theorem sort_by_label_keeps_old_selection_witness :
    (selectedIndices menuCBA.sort_by_label.entries = [0, 1] ∧
      (menuCBA.sort_by_label.update (pressed [SDL_SCANCODE_UP])).map
          (fun r => (r.1.cursor, selectedIndices r.1.entries)) = some (0, [0])) ∧
    ∃ (x : Entry Char) (p : Nat),
      menuCBA.entries[menuCBA.cursor.toNat]? = some x ∧ x.selected = true ∧
      menuCBA.sort_by_label.entries[p]? = some x ∧
      (∀ (i : Nat) (e : Entry Char), menuCBA.sort_by_label.entries[i]? = some e →
        (e.selected = true ↔ i = 0 ∨ i = p)) ∧
      (p ≠ 0 → (menuCBA.sort_by_label.entries.filter (fun e => e.selected)).length = 2) ∧
      ∃ m2 cbs, menuCBA.sort_by_label.update (pressed [SDL_SCANCODE_UP]) = some (m2, cbs) ∧
        (∀ (i : Nat) (e : Entry Char), m2.entries[i]? = some e →
          (e.selected = true ↔
            i = m2.cursor.toNat ∨ (i ≠ menuCBA.cursor.toNat ∧ (i = 0 ∨ i = p)))) ∧
        (∃ e0, m2.entries[0]? = some e0 ∧ e0.selected = true) ∧
        ((m2.entries.filter (fun e => e.selected)).length = 1 ↔
          (m2.cursor = 0 ∧ (p = 0 ∨ p = menuCBA.cursor.toNat))) :=
  ⟨⟨by decide, by decide⟩,
    sort_by_label_keeps_old_selection menuCBA (pressed [SDL_SCANCODE_UP]) (by decide)
      (by decide) (by decide) (by
        intro i e hi
        match i, hi with
        | 0, hi => cases Option.some.inj hi; decide
        | 1, hi => cases Option.some.inj hi; decide
        | 2, hi => cases Option.some.inj hi; decide
        | n + 3, hi => exact absurd hi (by simp [menuCBA]))⟩

/-! ## No entry is labelled with the bare parent marker -/

theorem entryFor_label_ne_parent (dir : Str) (d : Dirent) (hadm : isAdmitted d) :
    (entryFor dir d).label ≠ ['.', '.'] := by
  unfold entryFor
  split_ifs with hd
  · dsimp only
    intro h
    have hl := congrArg List.length h
    simp only [List.length_append, List.length_singleton, List.length_cons,
      List.length_nil] at hl
    match hn : d.d_name, hl with
    | [c], _ =>
      rw [hn] at h
      simp only [List.singleton_append, List.cons.injEq, and_true] at h
      exact absurd h.2 (by decide)
  · dsimp only
    intro h
    rcases hadm.2 with h1 | ⟨t, ht⟩
    · exact hd h1
    · rw [h] at ht
      have hl := congrArg List.length ht
      simp only [List.length_append, List.length_cons, List.length_nil] at hl
      omega

/-- Whatever the listing, no entry of the menu after `change_dir` is labelled `..`: a
directory gets a trailing `/`, and a file is let in only when its name ends in `.nes`. -/
theorem change_dir_no_bare_parent_label (opendir : Str → Option (List Dirent))
    (m : Menu FileAction) (dir : Str) (listing : List Dirent)
    (hopen : opendir dir = some listing) :
    ∃ m1, FileMenu.change_dir opendir m dir = some m1 ∧
      ∀ e ∈ m1.entries, e.label ≠ ['.', '.'] := by
  have hun : ∀ x ∈ (listing.filter (fun d => decide (isAdmitted d))).map (entryFor dir),
      x.selected = false := by
    intro x hx
    obtain ⟨d, -, rfl⟩ := List.mem_map.mp hx
    exact entryFor_selected dir d
  obtain ⟨hent, -⟩ := sort_by_label_after_adds m.clear rfl _ hun
  refine ⟨_, change_dir_of_open opendir m dir listing hopen, ?_⟩
  intro e he
  have hmem : e.label ∈ ((listing.filter (fun d => decide (isAdmitted d))).map
      (entryFor dir)).map Entry.label := by
    have h1 : e.label ∈ ((((listing.filter (fun d => decide (isAdmitted d))).map
        (entryFor dir)).foldl Menu.add m.clear).sort_by_label.entries).map Entry.label :=
      List.mem_map_of_mem _ he
    rw [hent, map_label_modifyHead_select] at h1
    exact ((stdSort_perm labelLess _).map Entry.label).mem_iff.mp h1
  obtain ⟨x, hx, hxl⟩ := List.mem_map.mp hmem
  obtain ⟨d, hd, rfl⟩ := List.mem_map.mp hx
  rw [← hxl]
  exact entryFor_label_ne_parent dir d (of_decide_eq_true (List.mem_filter.mp hd).2)

end GUI
